import Mathlib

/-!
Shallow embedding of the `parallel-malloc` allocator
(`src/my_alloc_v1.c`, with the variant pieces of `src/my_alloc.c` where they
differ), together with theorems checking the natural-language specification
against it.

Modelling conventions:
* Machine words (`size_t`) are `Nat`.  All header values built by the
  allocator are far below `2^64`, and the C bit operations used on them
  (`& ~0xF`, `& 1`, `& 2`, `| 1`, `| 2`) are expressed by the equivalent
  arithmetic on `Nat` (`h & ~0xF = h - h % 16`, `h & 1 = h % 2`,
  `h & 2 = h % 4 - h % 2`, setting a clear bit adds its value), which agrees
  with the 64-bit semantics for every value `< 2^64`.
* Addresses are byte offsets (`Nat`); the null pointer is `0`, and the mmapped
  arena base is a positive 16-byte-aligned address, as on the real machine.
* Heap memory is a total function from (8-aligned) byte offsets to word
  values; `mmap` yields zero-initialised memory.
* The per-arena `pthread_mutex_t` is modelled by an event counter `locks`
  that is incremented exactly where the C code calls `pthread_mutex_lock`.
* The model is the single-thread projection of the allocator (thread 0,
  arena 0): `get_my_arena` always yields the same arena and `g_tcache` is the
  calling thread's cache, exactly as in a single-threaded execution.
* The `for` walk in `try_free_list` is modelled with explicit fuel; the fuel
  is large enough that it is never exhausted on any state whose free list is
  an acyclic in-memory list (as in every reachable state).
-/

namespace MyAlloc

/-- Word size: `sizeof(size_t)` on the 64-bit target. -/
def WORD : Nat := 8

/-- Memory: word value stored at each byte offset. -/
def Mem : Type := Nat → Nat

/-- Store `v` at address `a`. -/
def upd (m : Mem) (a v : Nat) : Mem := fun x => if x = a then v else m x

/-- C `align16`: `(n + 15) & ~15`, i.e. round up to a multiple of 16. -/
def align16 (n : Nat) : Nat := (n + 15) - (n + 15) % 16

/-- C `sizeof(free_chunk_t)`: one `size_t` (8) plus two pointers (16). -/
def sizeof_free_chunk : Nat := 24

/-- C `get_free_chunk_min_size`:
`align16(align16(sizeof(free_chunk_t)) + sizeof(size_t))`. -/
def get_free_chunk_min_size : Nat := align16 (align16 sizeof_free_chunk + WORD)

/-- C `size_to_tcache_bin` (identical in `my_alloc_v1.c`):
`idx = usable / 16`; `-1` when `idx == 0` or `idx > 64`, else `idx - 1`. -/
def size_to_tcache_bin (usable : Nat) : Int :=
  let idx := usable / 16
  if idx = 0 then -1 else if 64 < idx then -1 else (idx : Int) - 1

/-- C `get_size_from_hdr`: `hdr & CHUNK_SIZE_MASK` (= `hdr & ~0xF`). -/
def get_size_from_hdr (h : Nat) : Nat := h - h % 16

/-- C `get_free_bit_from_hdr`: `hdr & CHUNK_FREE_BIT` (= `hdr & 1`). -/
def get_free_bit_from_hdr (h : Nat) : Nat := h % 2

/-- C `get_prev_from_hdr`: `hdr & CHUNK_PREV_IN_USE_BIT` (= `hdr & 2`). -/
def get_prev_from_hdr (h : Nat) : Nat := h % 4 - h % 2

/-- Value-level body of C `set_prev_bit_in_hdr`: set or clear bit 1. -/
def set_prev_bit_val (h : Nat) (flag : Bool) : Nat :=
  if flag then (if get_prev_from_hdr h = 2 then h else h + 2)
  else (if get_prev_from_hdr h = 2 then h - 2 else h)

/-- C `build_hdr_with_free_bit`: `(size & ~0xF)` with bit 0 set iff free. -/
def build_hdr_with_free_bit (size : Nat) (is_free : Bool) : Nat :=
  (size - size % 16) + (if is_free then 1 else 0)

/-- Value-level body of C `set_hdr_keep_prev`: rewrite size and FREE bit,
preserving bit 1 of the old word. -/
def set_hdr_keep_prev_val (old size : Nat) (is_free : Bool) : Nat :=
  build_hdr_with_free_bit size is_free + get_prev_from_hdr old

/-- C `set_prev_bit_in_hdr` acting on memory. -/
def set_prev_bit_in_hdr (m : Mem) (hdr : Nat) (flag : Bool) : Mem :=
  upd m hdr (set_prev_bit_val (m hdr) flag)

/-- C `set_hdr_keep_prev` acting on memory. -/
def set_hdr_keep_prev (m : Mem) (hdr size : Nat) (is_free : Bool) : Mem :=
  upd m hdr (set_hdr_keep_prev_val (m hdr) size is_free)

/-- C `set_ftr`: write `size | FREE` one word before the chunk's end. -/
def set_ftr (m : Mem) (hdr size : Nat) : Mem :=
  upd m (hdr + size - WORD) (build_hdr_with_free_bit size true)

/-- C `get_payload_from_hdr`. -/
def get_payload_from_hdr (hdr : Nat) : Nat := hdr + WORD

/-- C `get_hdr_from_payload`. -/
def get_hdr_from_payload (ptr : Nat) : Nat := ptr - WORD

/-- C `get_chunk_size`. -/
def get_chunk_size (m : Mem) (hdr : Nat) : Nat := get_size_from_hdr (m hdr)

/-- C `chunk_is_free` (nonzero test of the FREE bit). -/
def chunk_is_free (m : Mem) (hdr : Nat) : Bool := get_free_bit_from_hdr (m hdr) = 1

/-- C `prev_chunk_is_free`: `!(hdr & CHUNK_PREV_IN_USE_BIT)`. -/
def prev_chunk_is_free (m : Mem) (hdr : Nat) : Bool := get_prev_from_hdr (m hdr) = 0

/-- C `get_next_chunk_hdr`. -/
def get_next_chunk_hdr (m : Mem) (hdr : Nat) : Nat := hdr + get_chunk_size m hdr

/-- The `arena_t` record (the mutex itself is replaced by the `locks`
event counter in `S`).  `endp` is the C field `end`. -/
structure Arena where
  base : Nat
  bump : Nat
  endp : Nat
  free_list : Nat
deriving Repr, DecidableEq

/-- One `tcache_bin_t`: head pointer and (C `int`) count. -/
structure TcacheBin where
  head : Nat
  count : Int
deriving Repr, DecidableEq

/-- Global state of the single-thread projection: heap memory, the calling
thread's arena, its `g_tcache`, and the lock-acquisition event counter. -/
structure S where
  mem : Mem
  arena : Arena
  tcache : Nat → TcacheBin
  locks : Nat

/-- C `TCACHE_MAX_COUNT`. -/
def TCACHE_MAX_COUNT : Int := 32

/-- C `set_next_chunk_hdr_prev`: write the PREV_IN_USE bit of the next
chunk's header if it lies below `bump`. -/
def set_next_chunk_hdr_prev (s : S) (hdr : Nat) (flag : Bool) : S :=
  let nxt := get_next_chunk_hdr s.mem hdr
  if nxt < s.arena.bump then { s with mem := set_prev_bit_in_hdr s.mem nxt flag }
  else s

/-- C `remove_from_free_list`. -/
def remove_from_free_list (s : S) (fc : Nat) : S :=
  let fd := s.mem (fc + 8)
  let bk := s.mem (fc + 16)
  let m1 := if bk ≠ 0 then upd s.mem (bk + 8) fd else s.mem
  let m2 := if fd ≠ 0 then upd m1 (fd + 16) bk else m1
  let fl := if s.arena.free_list = fc then fd else s.arena.free_list
  let m3 := upd (upd m2 (fc + 8) 0) (fc + 16) 0
  { s with mem := m3, arena := { s.arena with free_list := fl } }

/-- C `push_front_to_free_list`. -/
def push_front_to_free_list (s : S) (fc : Nat) : S :=
  let m1 := upd s.mem (fc + 16) 0
  let m2 := upd m1 (fc + 8) s.arena.free_list
  let m3 := if s.arena.free_list ≠ 0 then upd m2 (s.arena.free_list + 16) fc else m2
  { s with mem := m3, arena := { s.arena with free_list := fc } }

/-- C `split_free_chunk` of `my_alloc_v1.c`: returns the header of the
allocated chunk together with the updated state. -/
def split_free_chunk (s : S) (fc need_total : Nat) : Nat × S :=
  let csz := get_chunk_size s.mem fc
  if need_total + get_free_chunk_min_size ≤ csz then
    let s1 := remove_from_free_list s fc
    let s2 := { s1 with mem := set_hdr_keep_prev s1.mem fc need_total false }
    let s3 := set_next_chunk_hdr_prev s2 fc true
    let rem := fc + need_total
    let rem_sz := csz - need_total
    let s4 := { s3 with mem := set_hdr_keep_prev s3.mem rem rem_sz true }
    let s5 := { s4 with mem := set_ftr s4.mem rem rem_sz }
    let s6 := { s5 with mem := upd (upd s5.mem (rem + 8) 0) (rem + 16) 0 }
    (fc, push_front_to_free_list s6 rem)
  else
    let s1 := remove_from_free_list s fc
    let s2 := { s1 with mem := set_hdr_keep_prev s1.mem fc csz false }
    (fc, set_next_chunk_hdr_prev s2 fc true)

/-- Fuel-indexed body of the C `for` loop in `try_free_list`. -/
def tryFreeListAux (s : S) (need_total : Nat) : Nat → Nat → Option (Nat × S)
  | 0, _ => none
  | _ + 1, 0 => none
  | fuel + 1, p =>
    if ¬ chunk_is_free s.mem p then tryFreeListAux s need_total fuel (s.mem (p + 8))
    else if need_total ≤ get_chunk_size s.mem p then some (split_free_chunk s p need_total)
    else tryFreeListAux s need_total fuel (s.mem (p + 8))

/-- C `try_free_list` of `my_alloc_v1.c`. -/
def try_free_list (s : S) (need_total : Nat) : Option (Nat × S) :=
  tryFreeListAux s need_total (s.arena.endp + 1) s.arena.free_list

/-- C `carve_from_top` of `my_alloc_v1.c` (and `my_alloc_v0.c`): align the
next payload slot to 16, step back one word for the header, bounds-check
against `end`, then write the header (in use, PREV_IN_USE forced to 1) and
advance `bump`.  The bounds check `(size_t)(a->end - hdr) < need` is the
truncated-subtraction comparison below whenever `hdr ≤ end`, which holds in
every reachable state. -/
def carve_from_top (s : S) (need_total : Nat) : Option (Nat × S) :=
  let start := s.arena.bump
  let payload := align16 (start + WORD)
  let hdr := payload - WORD
  if s.arena.endp - hdr < need_total then none
  else
    let m1 := set_hdr_keep_prev s.mem hdr need_total false
    let m2 := set_prev_bit_in_hdr m1 hdr true
    some (hdr, { s with mem := m2, arena := { s.arena with bump := hdr + need_total } })

/-- C `coalesce` of `my_alloc_v1.c`: merge right then left, returning the
(possibly moved) header and the updated state. -/
def coalesce (s : S) (hdr : Nat) : Nat × S :=
  let csz := get_chunk_size s.mem hdr
  let nxt := get_next_chunk_hdr s.mem hdr
  let step1 : Nat × S :=
    if nxt < s.arena.bump then
      if chunk_is_free s.mem nxt then
        let nxt_sz := get_chunk_size s.mem nxt
        let sA := remove_from_free_list s nxt
        let csz1 := csz + nxt_sz
        let mA := set_hdr_keep_prev sA.mem hdr csz1 true
        (csz1, { sA with mem := set_ftr mA hdr csz1 })
      else (csz, s)
    else (csz, s)
  let csz1 := step1.1
  let s1 := step1.2
  if prev_chunk_is_free s1.mem hdr then
    let prev_footer := s1.mem (hdr - WORD)
    if get_free_bit_from_hdr prev_footer = 1 then
      let prev_sz := get_size_from_hdr prev_footer
      let prv := hdr - prev_sz
      let sB := remove_from_free_list s1 prv
      let csz2 := csz1 + prev_sz
      let mC := set_hdr_keep_prev sB.mem prv csz2 true
      (prv, { sB with mem := set_ftr mC prv csz2 })
    else (hdr, s1)
  else (hdr, s1)

/-- C `my_malloc` of `my_alloc_v1.c` (single-thread projection).  Returns the
payload pointer (or `none`) and the updated state.  The mutex acquisition is
recorded in `locks`. -/
def my_malloc (s : S) (size : Nat) : Option Nat × S :=
  if size = 0 then (none, s)
  else if s.arena.base = 0 then (none, s)
  else
    let s := { s with locks := s.locks + 1 }
    let payload := align16 size
    let need := align16 (WORD + payload)
    let usable := need - WORD
    let bin := size_to_tcache_bin usable
    if 0 ≤ bin ∧ (s.tcache bin.toNat).head ≠ 0 then
      let b := s.tcache bin.toNat
      let fc := b.head
      let s' := { s with
        tcache := fun i =>
          if i = bin.toNat then { head := s.mem (fc + 8), count := b.count - 1 }
          else s.tcache i }
      (some (get_payload_from_hdr fc), s')
    else
      match try_free_list s need with
      | some (hdr, s') => (some (get_payload_from_hdr hdr), s')
      | none =>
        match carve_from_top s need with
        | some (hdr, s') => (some (get_payload_from_hdr hdr), s')
        | none => (none, s)

/-- Arena path of C `my_free` (everything after the tcache attempt): mark
free, write the footer, coalesce, clear the successor's PREV_IN_USE, then
either retract `bump` or push onto the free list. -/
def freeArenaPath (s : S) (hdr csz : Nat) : S :=
  let s1 := { s with mem := set_ftr (set_hdr_keep_prev s.mem hdr csz true) hdr csz }
  let r := coalesce s1 hdr
  let merged := r.1
  let s2 := r.2
  let msz := get_chunk_size s2.mem merged
  let merged_end := merged + msz
  let s3 := set_next_chunk_hdr_prev s2 merged false
  if merged_end = s3.arena.bump then
    { s3 with arena := { s3.arena with bump := merged } }
  else
    let s4 := { s3 with mem := upd (upd s3.mem (merged + 8) 0) (merged + 16) 0 }
    push_front_to_free_list s4 merged

/-- C `my_free` of `my_alloc_v1.c` (single-thread projection). -/
def my_free (s : S) (ptr : Nat) : S :=
  if ptr = 0 then s
  else if s.arena.base = 0 then s
  else
    let s := { s with locks := s.locks + 1 }
    let hdr := get_hdr_from_payload ptr
    let csz := get_chunk_size s.mem hdr
    let usable := csz - WORD
    let bin := size_to_tcache_bin usable
    if 0 ≤ bin ∧ (s.tcache bin.toNat).count < TCACHE_MAX_COUNT then
      let b := s.tcache bin.toNat
      let m' := upd s.mem (hdr + 8) b.head
      { s with
        mem := m'
        tcache := fun i =>
          if i = bin.toNat then { head := hdr, count := b.count + 1 }
          else s.tcache i }
    else freeArenaPath s hdr csz

/-- State right after `arena_init`/`global_init` on a fresh zeroed mapping
`[base, endp)`. -/
def initState (base endp : Nat) : S :=
  { mem := fun _ => 0
    arena := { base := base, bump := base, endp := endp, free_list := 0 }
    tcache := fun _ => { head := 0, count := 0 }
    locks := 0 }

/-- States (with the multiset of live payload pointers) reachable from the
initial state by single-threaded `my_malloc`/`my_free` calls, where `my_free`
is only ever applied to a pointer previously returned by `my_malloc` and not
yet freed (any other argument is undefined behaviour per the spec). -/
inductive Reach (base endp : Nat) : S → List Nat → Prop where
  | init : Reach base endp (initState base endp) []
  | mallocSome {s live n p s'} : Reach base endp s live →
      my_malloc s n = (some p, s') → Reach base endp s' (p :: live)
  | mallocNone {s live n s'} : Reach base endp s live →
      my_malloc s n = (none, s') → Reach base endp s' live
  | freeStep {s live p} : Reach base endp s live → p ∈ live →
      Reach base endp (my_free s p) (live.erase p)

end MyAlloc

namespace AllocC

open MyAlloc

/-- C `carve_from_top` of `my_alloc.c`: identical to the `my_alloc_v1.c`
version except that it does not touch the PREV_IN_USE bit of the new header
(there is no `set_prev_bit_in_hdr(hdr, 1)` call). -/
def carve_from_top (s : S) (need_total : Nat) : Option (Nat × S) :=
  let start := s.arena.bump
  let payload := align16 (start + WORD)
  let hdr := payload - WORD
  if s.arena.endp - hdr < need_total then none
  else
    let m1 := set_hdr_keep_prev s.mem hdr need_total false
    some (hdr, { s with mem := m1, arena := { s.arena with bump := hdr + need_total } })

end AllocC

namespace MyAlloc

/-- The tcache bin a `my_malloc`/`my_free` call computes for a chunk of
total size `csz` (from `usable = csz - WORD`, as in both functions). -/
def binOf (csz : Nat) : Int := size_to_tcache_bin (csz - WORD)

/-- Total chunk size `my_malloc` computes for a request of `size` bytes:
`align16(sizeof(size_t) + align16(size))`. -/
def needOf (size : Nat) : Nat := align16 (WORD + align16 size)

/-- Concrete state used by witnesses: the initial state for a mapped region
`[16, 4096)` after `my_malloc(48)` (which returns payload pointer 32). -/
def sAfterAlloc48 : S := (my_malloc (initState 16 4096) 48).2

/-- Concrete state used by witnesses: `sAfterAlloc48` after `my_free(32)`;
the freed chunk (header 24, size 64) now sits in tcache bin 2. -/
def sTcacheHit : S := my_free sAfterAlloc48 32

/-- Concrete state used by witnesses: the initial state for `[16, 8192)`
after `my_malloc(2000)` (need 2016, outside every tcache size class). -/
def sBigAlloc : S := (my_malloc (initState 16 8192) 2000).2

/-- Concrete state used by witnesses: the state produced by a successful
`carve_from_top` of 64 bytes from the initial state for `[16, 4096)`. -/
def c4s : S := ((carve_from_top (initState 16 4096) 64).getD (0, initState 16 4096)).2

/-- Concrete state used by witnesses: two chunks carved (224 and 64 bytes),
then the first freed through the arena path, leaving the 224-byte chunk with
header at offset 24 as the single element of the free list. -/
def c8state : S :=
  freeArenaPath ((my_malloc ((my_malloc (initState 16 4096) 200).2) 48).2) 24 224

/-- In-memory doubly-linked free-list chain: `flChain m bk p l` holds when
following the `fd` words from pointer `p` visits exactly the nodes of `l`
(ending at null), and each node's `bk` word points at the node before it
(`bk = 0` at the list head, matching `push_front_to_free_list`). -/
def flChain (m : Mem) : Nat → Nat → List Nat → Prop
  | _, p, [] => p = 0
  | bk, p, h :: t => p = h ∧ m (h + 16) = bk ∧ flChain m h (m (h + 8)) t

/-- Separation of two free-list nodes: their header and two link words do
not overlap. -/
def NodeSep (a b : Nat) : Prop := a + 24 ≤ b ∨ b + 24 ≤ a

/-- Ownership status of a chunk in the ghost layout: on the arena free list,
held by the caller (a live allocation), or parked in a tcache bin. -/
inductive Status where
  | free : Status
  | live : Status
  | tc : Status
deriving DecidableEq, Repr

/-- A ghost chunk: its total encoded size and its ownership status. -/
structure Chunk where
  size : Nat
  st : Status
deriving DecidableEq, Repr

/-- PREV_IN_USE bit the chunk after `c` must carry. -/
def nextPU (c : Chunk) : Bool :=
  match c.st with
  | Status.free => false
  | _ => true

/-- PREV_IN_USE bit holding after the whole list `l`, entered with bit `pu`. -/
def endPU : Bool → List Chunk → Bool
  | pu, [] => pu
  | _, c :: t => endPU (nextPU c) t

/-- Total bytes of a chunk list. -/
def sumSizes : List Chunk → Nat
  | [] => 0
  | c :: t => c.size + sumSizes t

/-- The ghost layout `l` tiles memory from `pos` on: each chunk's header
word encodes its size, FREE bit and PREV_IN_USE bit, sizes are multiples of
16 and at least 32, free chunks carry a valid footer and never follow
another free chunk, and chunks are contiguous. -/
def tiled (m : Mem) : Nat → Bool → List Chunk → Prop
  | _, _, [] => True
  | pos, pu, c :: t =>
    m pos = c.size + (if c.st = Status.free then 1 else 0) + (if pu then 2 else 0) ∧
    c.size % 16 = 0 ∧ 32 ≤ c.size ∧
    (c.st = Status.free → m (pos + c.size - 8) = c.size + 1 ∧ pu = true) ∧
    tiled m (pos + c.size) (nextPU c) t

/-- Header and footer addresses of the layout (the words `tiled` reads). -/
def hfAddrs : Nat → List Chunk → List Nat
  | _, [] => []
  | pos, c :: t => pos :: (pos + c.size - 8) :: hfAddrs (pos + c.size) t

/-- Singly-linked tcache-bin chain through the chunks' `fd` words. -/
def tcChain (m : Mem) : Nat → List Nat → Prop
  | p, [] => p = 0
  | p, h :: t => p = h ∧ tcChain m (m (h + 8)) t

/-- A chunk with header at `h` and property `P` sits in the layout. -/
def IsChunkAt (base : Nat) (layout : List Chunk) (h : Nat) (P : Chunk → Prop) : Prop :=
  ∃ lA c lB, layout = lA ++ c :: lB ∧ h = base + 8 + sumSizes lA ∧ P c

/-- Ghost state: the chunk layout, the free list in list order, and each
tcache bin's stack in list order. -/
structure Ghost where
  layout : List Chunk
  fl : List Nat
  tl : Nat → List Nat

/-- The master invariant tying a reachable state, its live pointers and the
ghost state together. -/
structure GInv (base endp : Nat) (s : S) (live : List Nat) (g : Ghost) : Prop where
  baseEq : s.arena.base = base
  endpEq : s.arena.endp = endp
  tiling : tiled s.mem (base + 8) true g.layout
  bumpEq : (s.arena.bump = base ∧ g.layout = []) ∨
    s.arena.bump = base + 8 + sumSizes g.layout
  bumpLe : s.arena.bump ≤ endp
  lastPU : endPU true g.layout = true
  flRep : flChain s.mem 0 s.arena.free_list g.fl
  flNodup : g.fl.Nodup
  flMem : ∀ h, h ∈ g.fl ↔ IsChunkAt base g.layout h (fun c => c.st = Status.free)
  tcRep : ∀ b, b < 64 → tcChain s.mem ((s.tcache b).head) (g.tl b)
  tcCount : ∀ b, b < 64 → (s.tcache b).count = ((g.tl b).length : Int)
  tcNodup : ∀ b, b < 64 → (g.tl b).Nodup
  tcMem : ∀ b, b < 64 → ∀ h, h ∈ g.tl b ↔
    IsChunkAt base g.layout h (fun c => c.st = Status.tc ∧ c.size = 16 * (b + 2))
  liveRep : ∀ p, p ∈ live ↔
    8 ≤ p ∧ IsChunkAt base g.layout (p - 8) (fun c => c.st = Status.live)
  liveNodup : live.Nodup

/-- Decidable tiling check from the spec's wording: starting at `lo`, chunk
headers encode nonzero sizes, each successor starts exactly at
`header + size`, and the last chunk ends exactly at `hi`. -/
def tilesFrom (m : Mem) : Nat → Nat → Nat → Bool
  | 0, _, _ => false
  | fuel + 1, lo, hi =>
    if lo = hi then true
    else if get_chunk_size m lo = 0 then false
    else if lo + get_chunk_size m lo ≤ hi then
      tilesFrom m fuel (lo + get_chunk_size m lo) hi
    else false

end MyAlloc

section Theorems

open MyAlloc

theorem upd_same (m : Mem) (a v : Nat) : upd m a v a = v := by simp [upd]

theorem upd_ne (m : Mem) (a v x : Nat) (h : x ≠ a) : upd m a v x = m x := by
  simp [upd, h]

theorem locks_remove_from_free_list (s : S) (fc : Nat) :
    (remove_from_free_list s fc).locks = s.locks := rfl

theorem locks_push_front_to_free_list (s : S) (fc : Nat) :
    (push_front_to_free_list s fc).locks = s.locks := rfl

theorem locks_set_next_chunk_hdr_prev (s : S) (h : Nat) (f : Bool) :
    (set_next_chunk_hdr_prev s h f).locks = s.locks := by
  unfold set_next_chunk_hdr_prev
  dsimp only
  split <;> rfl

theorem locks_split_free_chunk (s : S) (fc n : Nat) :
    (split_free_chunk s fc n).2.locks = s.locks := by
  unfold split_free_chunk
  dsimp only
  split
  · rw [locks_push_front_to_free_list]
    dsimp only
    rw [locks_set_next_chunk_hdr_prev]
    rfl
  · rw [locks_set_next_chunk_hdr_prev]
    rfl

theorem locks_tryFreeListAux (s : S) (n : Nat) :
    ∀ fuel p h s', tryFreeListAux s n fuel p = some (h, s') → s'.locks = s.locks := by
  intro fuel
  induction fuel with
  | zero => intro p h s' hx; simp [tryFreeListAux] at hx
  | succ k ih =>
    intro p h s' hx
    match p with
    | 0 => simp [tryFreeListAux] at hx
    | q + 1 =>
      rw [show tryFreeListAux s n (k + 1) (q + 1) =
          (if ¬ chunk_is_free s.mem (q + 1) then tryFreeListAux s n k (s.mem (q + 1 + 8))
           else if n ≤ get_chunk_size s.mem (q + 1) then
             some (split_free_chunk s (q + 1) n)
           else tryFreeListAux s n k (s.mem (q + 1 + 8))) from rfl] at hx
      split at hx
      · exact ih _ _ _ hx
      · split at hx
        · have : (split_free_chunk s (q + 1) n).2 = s' := by
            cases hy : split_free_chunk s (q + 1) n with
            | mk a b => rw [hy] at hx; cases hx; rfl
          rw [← this]; exact locks_split_free_chunk s (q + 1) n
        · exact ih _ _ _ hx

theorem locks_try_free_list (s : S) (n h : Nat) (s' : S)
    (hx : try_free_list s n = some (h, s')) : s'.locks = s.locks :=
  locks_tryFreeListAux s n _ _ h s' hx

theorem locks_carve_from_top (s : S) (n h : Nat) (s' : S)
    (hx : carve_from_top s n = some (h, s')) : s'.locks = s.locks := by
  unfold carve_from_top at hx
  dsimp only at hx
  split at hx
  · cases hx
  · cases hx; rfl

theorem locks_coalesce (s : S) (hdr : Nat) : (coalesce s hdr).2.locks = s.locks := by
  unfold coalesce
  dsimp only
  split <;> (try split) <;> (dsimp only) <;>
    (try split) <;> (try split) <;> (try rfl)

theorem locks_freeArenaPath (s : S) (hdr csz : Nat) :
    (freeArenaPath s hdr csz).locks = s.locks := by
  unfold freeArenaPath
  have h1 := locks_coalesce { s with
    mem := set_ftr (set_hdr_keep_prev s.mem hdr csz true) hdr csz } hdr
  dsimp only
  split
  · simpa [locks_set_next_chunk_hdr_prev] using h1
  · simpa [locks_push_front_to_free_list, locks_set_next_chunk_hdr_prev] using h1

end Theorems

section HeaderValueLemmas

open MyAlloc

theorem get_prev_from_hdr_cases (h : Nat) :
    get_prev_from_hdr h = 0 ∨ get_prev_from_hdr h = 2 := by
  unfold get_prev_from_hdr; omega

theorem carve_header_val (old need : Nat) :
    set_prev_bit_val (set_hdr_keep_prev_val old need false) true =
      (need - need % 16) + 2 := by
  unfold set_prev_bit_val set_hdr_keep_prev_val build_hdr_with_free_bit get_prev_from_hdr
  simp only [Bool.false_eq_true, if_false, if_true]
  split <;> omega

theorem keep_prev_val_facts (old need : Nat) :
    (set_hdr_keep_prev_val old need false) % 2 = 0 ∧
    get_prev_from_hdr (set_hdr_keep_prev_val old need false) = get_prev_from_hdr old ∧
    get_size_from_hdr (set_hdr_keep_prev_val old need false) = need - need % 16 := by
  unfold set_hdr_keep_prev_val build_hdr_with_free_bit get_prev_from_hdr get_size_from_hdr
  simp only [Bool.false_eq_true, if_false]
  omega

end HeaderValueLemmas

section ClaimC3

open MyAlloc

/-- **C3 (counterexample).** The claim says `get_free_chunk_min_size` equals
two link words plus a header plus a footer rounded up to a multiple of 16
(which is 32); the code's value is not 32. -/
theorem c3_min_size_counterexample :
    get_free_chunk_min_size ≠ 32 ∧ align16 (2 * WORD + WORD + WORD) = 32 := by
  decide

/-- **C3 (amended).** `get_free_chunk_min_size` equals the struct size
(header plus two link words) rounded up to 16, plus one footer word, rounded
up to 16 again — i.e. 48 bytes on a 64-bit system, not 32. -/
theorem c3_min_size_amended :
    get_free_chunk_min_size = align16 (align16 (WORD + 2 * WORD) + WORD) ∧
    get_free_chunk_min_size = 48 := by
  decide

end ClaimC3

section ClaimC2

open MyAlloc

/-- **C2 (counterexample).** In a reachable state whose tcache bin 2 holds a
chunk, `my_malloc(48)` is a tcache bin hit and yet performs an arena lock
acquisition; likewise the `my_free` that pushed the chunk acquired the lock.
This refutes "no arena lock is acquired on the tcache fast path". -/
theorem c2_counterexample :
    (0 ≤ binOf (needOf 48) ∧ (sTcacheHit.tcache (binOf (needOf 48)).toNat).head ≠ 0) ∧
    (my_malloc sTcacheHit 48).1 = some 32 ∧
    (my_malloc sTcacheHit 48).2.locks = sTcacheHit.locks + 1 ∧
    (my_free sAfterAlloc48 32).locks = sAfterAlloc48.locks + 1 := by
  decide

/-- **C2 (amended).** Both `my_malloc` and `my_free` acquire the arena lock
on every call that passes the null/arena guards — in particular on a tcache
bin hit and on a tcache push — performing exactly one lock acquisition; the
tcache data they then touch is thread-local, but the path is not lock-free. -/
theorem c2_tcache_path_locks (s : S) (n p : Nat) (hn : n ≠ 0)
    (hb : s.arena.base ≠ 0) (hp : p ≠ 0) :
    (my_malloc s n).2.locks = s.locks + 1 ∧ (my_free s p).locks = s.locks + 1 := by
  constructor
  · unfold my_malloc
    rw [if_neg hn, if_neg hb]
    dsimp only
    split
    · rfl
    · split
      · next _ s' heq => exact locks_try_free_list _ _ _ _ heq
      · split
        · next _ s' heq2 => exact locks_carve_from_top _ _ _ _ heq2
        · rfl
  · unfold my_free
    rw [if_neg hp, if_neg hb]
    dsimp only
    split
    · rfl
    · exact locks_freeArenaPath _ _ _

/-- Witness for `c2_tcache_path_locks` at the concrete state `sTcacheHit`. -/
theorem c2_tcache_path_locks_witness :
    (48 ≠ 0 ∧ sTcacheHit.arena.base ≠ 0 ∧ 32 ≠ 0) ∧
    ((my_malloc sTcacheHit 48).2.locks = sTcacheHit.locks + 1 ∧
     (my_free sTcacheHit 32).locks = sTcacheHit.locks + 1) :=
  ⟨⟨by decide, by decide, by decide⟩,
    c2_tcache_path_locks sTcacheHit 48 32 (by decide) (by decide) (by decide)⟩

end ClaimC2

section ClaimC4

open MyAlloc

/-- **C4 (counterexample).** The claim asserts that `carve_from_top` always
writes a header with PREV_IN_USE set; the `my_alloc.c` version of
`carve_from_top`, carving 64 bytes from a fresh arena, produces a header
whose PREV_IN_USE bit is clear (0), while the `my_alloc_v1.c` version sets
it (2). -/
theorem c4_counterexample :
    (AllocC.carve_from_top (initState 16 4096) 64).map
        (fun r => get_prev_from_hdr (r.2.mem r.1)) = some 0 ∧
    (carve_from_top (initState 16 4096) 64).map
        (fun r => get_prev_from_hdr (r.2.mem r.1)) = some 2 := by
  decide

/-- **C4 (amended).** For every arena state and every `need`, both carve
implementations align `bump + WORD` up to 16 and step back one word to
obtain the header address, return `none` exactly when fewer than `need`
bytes remain before `end`, and otherwise write an in-use header of (masked)
size `need` there and advance `bump` to `header + need`; the
`my_alloc_v1.c` version additionally forces the header's PREV_IN_USE bit to
1, while the `my_alloc.c` version leaves the header's PREV_IN_USE bit as it
was found in memory. -/
theorem c4_carve_amended (s : S) (need : Nat) :
    (carve_from_top s need = none ↔
      s.arena.endp - (align16 (s.arena.bump + WORD) - WORD) < need) ∧
    (∀ h s', carve_from_top s need = some (h, s') →
      h = align16 (s.arena.bump + WORD) - WORD ∧
      chunk_is_free s'.mem h = false ∧
      get_prev_from_hdr (s'.mem h) = 2 ∧
      get_chunk_size s'.mem h = need - need % 16 ∧
      s'.arena.bump = h + need ∧
      s'.arena.base = s.arena.base ∧
      s'.arena.endp = s.arena.endp ∧
      s'.arena.free_list = s.arena.free_list ∧
      (∀ a, a ≠ h → s'.mem a = s.mem a)) ∧
    (∀ h s', AllocC.carve_from_top s need = some (h, s') →
      h = align16 (s.arena.bump + WORD) - WORD ∧
      chunk_is_free s'.mem h = false ∧
      get_prev_from_hdr (s'.mem h) = get_prev_from_hdr (s.mem h) ∧
      get_chunk_size s'.mem h = need - need % 16 ∧
      s'.arena.bump = h + need ∧
      (∀ a, a ≠ h → s'.mem a = s.mem a)) := by
  refine ⟨?_, ?_, ?_⟩
  · unfold carve_from_top
    dsimp only
    split
    · next hc => exact iff_of_true rfl hc
    · next hc => exact iff_of_false (by simp) hc
  · intro h s' hx
    unfold carve_from_top at hx
    dsimp only at hx
    split at hx
    · cases hx
    · cases hx
      have hv : (set_prev_bit_in_hdr
          (set_hdr_keep_prev s.mem (align16 (s.arena.bump + WORD) - WORD) need false)
          (align16 (s.arena.bump + WORD) - WORD) true)
          (align16 (s.arena.bump + WORD) - WORD) = (need - need % 16) + 2 := by
        unfold set_prev_bit_in_hdr set_hdr_keep_prev
        rw [upd_same, upd_same]
        exact carve_header_val _ _
      refine ⟨rfl, ?_, ?_, ?_, rfl, rfl, rfl, rfl, ?_⟩
      · simp only [chunk_is_free, get_free_bit_from_hdr, hv]
        simp only [decide_eq_false_iff_not]
        omega
      · dsimp only
        rw [hv]; unfold get_prev_from_hdr; omega
      · simp only [get_chunk_size, get_size_from_hdr, hv]; omega
      · intro a ha
        dsimp only
        unfold set_prev_bit_in_hdr set_hdr_keep_prev
        rw [upd_ne _ _ _ _ ha, upd_ne _ _ _ _ ha]
  · intro h s' hx
    unfold AllocC.carve_from_top at hx
    dsimp only at hx
    split at hx
    · cases hx
    · cases hx
      have hv : (set_hdr_keep_prev s.mem (align16 (s.arena.bump + WORD) - WORD) need false)
          (align16 (s.arena.bump + WORD) - WORD) =
          set_hdr_keep_prev_val (s.mem (align16 (s.arena.bump + WORD) - WORD)) need false := by
        unfold set_hdr_keep_prev
        rw [upd_same]
      obtain ⟨h2, h4, h6⟩ := keep_prev_val_facts
        (s.mem (align16 (s.arena.bump + WORD) - WORD)) need
      refine ⟨rfl, ?_, ?_, ?_, rfl, ?_⟩
      · simp only [chunk_is_free, get_free_bit_from_hdr, hv]
        simp only [decide_eq_false_iff_not]
        omega
      · dsimp only
        rw [hv, h4]
      · simp only [get_chunk_size, hv, h6]
      · intro a ha
        dsimp only
        unfold set_hdr_keep_prev
        rw [upd_ne _ _ _ _ ha]

/-- Witness for `c4_carve_amended`: a successful 64-byte carve from the
fresh arena `[16, 4096)`, whose header lands at offset 24. -/
theorem c4_carve_amended_witness :
    24 = align16 ((initState 16 4096).arena.bump + WORD) - WORD ∧
    chunk_is_free c4s.mem 24 = false ∧
    get_prev_from_hdr (c4s.mem 24) = 2 ∧
    get_chunk_size c4s.mem 24 = 64 - 64 % 16 ∧
    c4s.arena.bump = 24 + 64 ∧
    c4s.arena.base = (initState 16 4096).arena.base ∧
    c4s.arena.endp = (initState 16 4096).arena.endp ∧
    c4s.arena.free_list = (initState 16 4096).arena.free_list ∧
    (∀ a, a ≠ 24 → c4s.mem a = (initState 16 4096).mem a) :=
  (c4_carve_amended (initState 16 4096) 64).2.1 24 c4s rfl

end ClaimC4

section ClaimC6

open MyAlloc

/-- **C6.** When `my_free` inserts a chunk into a tcache bin (valid bin
index and `count < TCACHE_MAX_COUNT`), the chunk's header word, its footer
slot, the right neighbour's header (hence its PREV_IN_USE bit), and the
arena's free list and bump pointer are all unchanged — indeed every memory
word except the chunk's first payload word is unchanged, and that word
receives the bin's old head; only this bin's `head` and `count` change. -/
theorem c6_tcache_push_frame (s : S) (p : Nat) (hp : p ≠ 0) (hb : s.arena.base ≠ 0)
    (hbin : 0 ≤ binOf (get_chunk_size s.mem (get_hdr_from_payload p)))
    (hcnt : (s.tcache (binOf (get_chunk_size s.mem (get_hdr_from_payload p))).toNat).count <
      TCACHE_MAX_COUNT) :
    (∀ a, a ≠ get_hdr_from_payload p + 8 → (my_free s p).mem a = s.mem a) ∧
    (my_free s p).mem (get_hdr_from_payload p + 8) =
      (s.tcache (binOf (get_chunk_size s.mem (get_hdr_from_payload p))).toNat).head ∧
    (my_free s p).arena = s.arena ∧
    (∀ i, i ≠ (binOf (get_chunk_size s.mem (get_hdr_from_payload p))).toNat →
      (my_free s p).tcache i = s.tcache i) ∧
    ((my_free s p).tcache (binOf (get_chunk_size s.mem (get_hdr_from_payload p))).toNat).head =
      get_hdr_from_payload p ∧
    ((my_free s p).tcache (binOf (get_chunk_size s.mem (get_hdr_from_payload p))).toNat).count =
      (s.tcache (binOf (get_chunk_size s.mem (get_hdr_from_payload p))).toNat).count + 1 := by
  have hcond : 0 ≤ binOf (get_chunk_size s.mem (get_hdr_from_payload p)) ∧
      (s.tcache (binOf (get_chunk_size s.mem (get_hdr_from_payload p))).toNat).count <
        TCACHE_MAX_COUNT := ⟨hbin, hcnt⟩
  simp only [binOf] at hcond ⊢
  unfold my_free
  rw [if_neg hp, if_neg hb]
  dsimp only
  rw [if_pos hcond]
  dsimp only
  refine ⟨?_, ?_, rfl, ?_, ?_, ?_⟩
  · intro a ha
    exact upd_ne _ _ _ _ ha
  · exact upd_same _ _ _
  · intro i hi
    rw [if_neg hi]
  · rw [if_pos rfl]
  · rw [if_pos rfl]

/-- Witness for `c6_tcache_push_frame`: freeing the 64-byte chunk at
payload 32 in `sAfterAlloc48` (bin 2, count 0). -/
theorem c6_tcache_push_frame_witness :
    (32 ≠ 0 ∧ sAfterAlloc48.arena.base ≠ 0 ∧
     0 ≤ binOf (get_chunk_size sAfterAlloc48.mem (get_hdr_from_payload 32)) ∧
     (sAfterAlloc48.tcache
        (binOf (get_chunk_size sAfterAlloc48.mem (get_hdr_from_payload 32))).toNat).count <
       TCACHE_MAX_COUNT) ∧
    ((∀ a, a ≠ get_hdr_from_payload 32 + 8 →
        (my_free sAfterAlloc48 32).mem a = sAfterAlloc48.mem a) ∧
     (my_free sAfterAlloc48 32).mem (get_hdr_from_payload 32 + 8) =
       (sAfterAlloc48.tcache
          (binOf (get_chunk_size sAfterAlloc48.mem (get_hdr_from_payload 32))).toNat).head ∧
     (my_free sAfterAlloc48 32).arena = sAfterAlloc48.arena ∧
     (∀ i, i ≠ (binOf (get_chunk_size sAfterAlloc48.mem (get_hdr_from_payload 32))).toNat →
        (my_free sAfterAlloc48 32).tcache i = sAfterAlloc48.tcache i) ∧
     ((my_free sAfterAlloc48 32).tcache
        (binOf (get_chunk_size sAfterAlloc48.mem (get_hdr_from_payload 32))).toNat).head =
       get_hdr_from_payload 32 ∧
     ((my_free sAfterAlloc48 32).tcache
        (binOf (get_chunk_size sAfterAlloc48.mem (get_hdr_from_payload 32))).toNat).count =
       (sAfterAlloc48.tcache
          (binOf (get_chunk_size sAfterAlloc48.mem (get_hdr_from_payload 32))).toNat).count + 1) :=
  ⟨⟨by decide, by decide, by decide, by decide⟩,
    c6_tcache_push_frame sAfterAlloc48 32 (by decide) (by decide) (by decide) (by decide)⟩

end ClaimC6

section ClaimC7

open MyAlloc

/-- **C7.** On `my_free`'s arena path (no tcache insertion), after marking
free, writing the footer, coalescing and clearing the successor's
PREV_IN_USE, if the merged chunk's end equals `bump` the chunk is not
linked into the free list (the free list and all memory are left as they
were after those steps) and `bump` is retracted to the merged chunk's
header; otherwise `bump` is unchanged and the merged chunk becomes the head
of the free list. -/
theorem c7_free_retract_or_push (s : S) (p : Nat) (hp : p ≠ 0) (hb : s.arena.base ≠ 0)
    (hpath : ¬(0 ≤ binOf (get_chunk_size s.mem (get_hdr_from_payload p)) ∧
      (s.tcache (binOf (get_chunk_size s.mem (get_hdr_from_payload p))).toNat).count <
        TCACHE_MAX_COUNT)) :
    my_free s p =
      freeArenaPath { s with locks := s.locks + 1 } (get_hdr_from_payload p)
        (get_chunk_size s.mem (get_hdr_from_payload p)) ∧
    ∀ sl hdr csz,
      (let s1 := { sl with mem := set_ftr (set_hdr_keep_prev sl.mem hdr csz true) hdr csz }
       let r := coalesce s1 hdr
       let s3 := set_next_chunk_hdr_prev r.2 r.1 false
       (r.1 + get_chunk_size r.2.mem r.1 = s3.arena.bump →
         freeArenaPath sl hdr csz = { s3 with arena := { s3.arena with bump := r.1 } }) ∧
       (r.1 + get_chunk_size r.2.mem r.1 ≠ s3.arena.bump →
         (freeArenaPath sl hdr csz).arena.free_list = r.1 ∧
         (freeArenaPath sl hdr csz).arena.bump = s3.arena.bump)) := by
  constructor
  · unfold my_free
    rw [if_neg hp, if_neg hb]
    dsimp only
    simp only [binOf] at hpath
    rw [if_neg hpath]
  · intro sl hdr csz
    dsimp only
    constructor
    · intro hcond
      unfold freeArenaPath
      dsimp only
      rw [if_pos hcond]
    · intro hcond
      unfold freeArenaPath
      dsimp only
      rw [if_neg hcond]
      exact ⟨rfl, rfl⟩

/-- Witness for `c7_free_retract_or_push`: freeing the 2016-byte chunk at
payload 32 in `sBigAlloc` (outside every tcache class, so the arena path
runs; the chunk touches the top, so `bump` retracts). -/
theorem c7_free_retract_or_push_witness :
    (32 ≠ 0 ∧ sBigAlloc.arena.base ≠ 0 ∧
     ¬(0 ≤ binOf (get_chunk_size sBigAlloc.mem (get_hdr_from_payload 32)) ∧
       (sBigAlloc.tcache
          (binOf (get_chunk_size sBigAlloc.mem (get_hdr_from_payload 32))).toNat).count <
         TCACHE_MAX_COUNT)) ∧
    (my_free sBigAlloc 32 =
      freeArenaPath { sBigAlloc with locks := sBigAlloc.locks + 1 } (get_hdr_from_payload 32)
        (get_chunk_size sBigAlloc.mem (get_hdr_from_payload 32)) ∧
     ∀ sl hdr csz,
      (let s1 := { sl with mem := set_ftr (set_hdr_keep_prev sl.mem hdr csz true) hdr csz }
       let r := coalesce s1 hdr
       let s3 := set_next_chunk_hdr_prev r.2 r.1 false
       (r.1 + get_chunk_size r.2.mem r.1 = s3.arena.bump →
         freeArenaPath sl hdr csz = { s3 with arena := { s3.arena with bump := r.1 } }) ∧
       (r.1 + get_chunk_size r.2.mem r.1 ≠ s3.arena.bump →
         (freeArenaPath sl hdr csz).arena.free_list = r.1 ∧
         (freeArenaPath sl hdr csz).arena.bump = s3.arena.bump))) :=
  ⟨⟨by decide, by decide, by decide⟩,
    c7_free_retract_or_push sBigAlloc 32 (by decide) (by decide) (by decide)⟩

end ClaimC7

section ClaimC9

open MyAlloc

theorem tryFreeListAux_nil (s : S) (n : Nat) : ∀ fuel, tryFreeListAux s n fuel 0 = none := by
  intro fuel
  cases fuel with
  | zero => rfl
  | succ k => rfl

theorem try_free_list_empty (s : S) (n : Nat) (h : s.arena.free_list = 0) :
    try_free_list s n = none := by
  unfold try_free_list
  rw [h]
  exact tryFreeListAux_nil s n _

theorem align16_add8 (b : Nat) (h : b % 16 = 0) : align16 (b + 8) = b + 16 := by
  unfold align16; omega

/-- **C9.** Starting from the freshly initialised arena, a single thread
executing `p1 = alloc(MIN_CHUNK); free(p1); p2 = alloc(MIN_CHUNK)` gets
`p2 = p1` (both are `base + 16`): the freed chunk is reused via the tcache. -/
theorem c9_alloc_free_alloc_reuse (base endp : Nat) (h16 : base % 16 = 0)
    (hpos : 0 < base) (hroom : base + 72 ≤ endp) :
    (my_malloc (initState base endp) get_free_chunk_min_size).1 = some (base + 16) ∧
    (my_malloc
        (my_free (my_malloc (initState base endp) get_free_chunk_min_size).2 (base + 16))
        get_free_chunk_min_size).1 = some (base + 16) := by
  have h48 : get_free_chunk_min_size = 48 := rfl
  have hA : my_malloc (initState base endp) get_free_chunk_min_size =
      ((some (base + 16),
        { mem := set_prev_bit_in_hdr
            (set_hdr_keep_prev (fun _ => 0) (base + 8) 64 false) (base + 8) true
          arena := { base := base, bump := base + 72, endp := endp, free_list := 0 }
          tcache := fun _ => { head := 0, count := 0 }
          locks := 1 }) : Option Nat × S) := by
    rw [h48]
    unfold my_malloc
    rw [if_neg (by omega : ¬(48 = 0))]
    rw [if_neg (show ¬((initState base endp).arena.base = 0) by
      unfold initState; dsimp only; omega)]
    dsimp only
    rw [if_neg ?hm]
    case hm =>
      unfold initState
      dsimp only
      intro hcon
      exact hcon.2 rfl
    rw [try_free_list_empty _ _ rfl]
    dsimp only
    unfold carve_from_top
    dsimp only
    rw [show align16 ((initState base endp).arena.bump + WORD) =
        base + 16 from align16_add8 base h16]
    rw [if_neg (by
      have h64 : align16 (8 + align16 48) = 64 := rfl
      unfold initState WORD
      dsimp only
      omega)]
    unfold initState WORD
    dsimp only
    rw [show base + 16 - 8 = base + 8 from by omega]
    rfl
  have hm66 : (set_prev_bit_in_hdr (set_hdr_keep_prev (fun _ => 0) (base + 8) 64 false)
      (base + 8) true) (base + 8) = 66 := by
    unfold set_prev_bit_in_hdr set_hdr_keep_prev
    rw [upd_same, upd_same]
    show set_prev_bit_val (set_hdr_keep_prev_val 0 64 false) true = 66
    decide
  refine ⟨by rw [hA], ?_⟩
  rw [hA]
  dsimp only
  have hB : my_free
      { mem := set_prev_bit_in_hdr
          (set_hdr_keep_prev (fun _ => 0) (base + 8) 64 false) (base + 8) true
        arena := { base := base, bump := base + 72, endp := endp, free_list := 0 }
        tcache := fun _ => { head := 0, count := 0 }
        locks := 1 } (base + 16) =
      { mem := upd (set_prev_bit_in_hdr
          (set_hdr_keep_prev (fun _ => 0) (base + 8) 64 false) (base + 8) true)
          (base + 8 + 8) 0
        arena := { base := base, bump := base + 72, endp := endp, free_list := 0 }
        tcache := fun i => if i = 2 then { head := base + 8, count := 0 + 1 }
          else { head := 0, count := 0 }
        locks := 2 } := by
    unfold my_free
    rw [if_neg (by omega : ¬(base + 16 = 0))]
    rw [if_neg (by omega : ¬(base = 0))]
    dsimp only
    simp only [get_hdr_from_payload, WORD]
    simp only [show base + 16 - 8 = base + 8 from by omega]
    simp only [get_chunk_size, hm66]
    rw [if_pos (by decide)]
    rfl
  rw [hB, h48]
  unfold my_malloc
  rw [if_neg (by omega : ¬(48 = 0))]
  rw [if_neg (by omega : ¬(base = 0))]
  dsimp only
  rw [if_pos ?hit]
  case hit =>
    refine ⟨by decide, ?_⟩
    show (if (size_to_tcache_bin (align16 (WORD + align16 48) - WORD)).toNat = 2 then
        ({ head := base + 8, count := 0 + 1 } : TcacheBin)
        else { head := 0, count := 0 }).head ≠ 0
    rw [if_pos (by decide)]
    dsimp only
    omega
  dsimp only
  show some (get_payload_from_hdr (if (size_to_tcache_bin
      (align16 (WORD + align16 48) - WORD)).toNat = 2 then
      ({ head := base + 8, count := 0 + 1 } : TcacheBin)
      else { head := 0, count := 0 }).head) = some (base + 16)
  rw [if_pos (by decide)]
  dsimp only
  unfold get_payload_from_hdr WORD
  rw [show base + 8 + 8 = base + 16 from by omega]

/-- Witness for `c9_alloc_free_alloc_reuse` at `base = 16`, `endp = 88`. -/
theorem c9_alloc_free_alloc_reuse_witness :
    (16 % 16 = 0 ∧ 0 < 16 ∧ 16 + 72 ≤ 88) ∧
    ((my_malloc (initState 16 88) get_free_chunk_min_size).1 = some (16 + 16) ∧
     (my_malloc (my_free (my_malloc (initState 16 88) get_free_chunk_min_size).2 (16 + 16))
        get_free_chunk_min_size).1 = some (16 + 16)) :=
  ⟨⟨by decide, by decide, by decide⟩,
    c9_alloc_free_alloc_reuse 16 88 (by decide) (by decide) (by decide)⟩

end ClaimC9

section FreeListLemmas

open MyAlloc

theorem flChain_frame (m m' : Mem) :
    ∀ (l : List Nat) (bk p : Nat), flChain m bk p l →
    (∀ h ∈ l, m' (h + 8) = m (h + 8) ∧ m' (h + 16) = m (h + 16)) →
    flChain m' bk p l := by
  intro l
  induction l with
  | nil => intro bk p hc _; exact hc
  | cons h t ih =>
    intro bk p hc hfr
    obtain ⟨hp, hbk, ht⟩ := hc
    refine ⟨hp, ?_, ?_⟩
    · rw [(hfr h (by simp)).2]; exact hbk
    · rw [(hfr h (by simp)).1]
      exact ih h (m (h + 8)) ht (fun x hx => hfr x (by simp [hx]))

theorem nodeSep_symm {a b : Nat} (h : NodeSep a b) : NodeSep b a := by
  unfold NodeSep at *; omega

theorem flChain_push_mem (m : Mem) (head fc : Nat) (fl : List Nat)
    (hc : flChain m 0 head fl)
    (hsep : ∀ h ∈ fl, NodeSep fc h)
    (hpsep : fl.Pairwise NodeSep)
    (hnz : ∀ h ∈ fl, 0 < h) :
    flChain (if head ≠ 0 then upd (upd (upd m (fc + 16) 0) (fc + 8) head) (head + 16) fc
             else upd (upd m (fc + 16) 0) (fc + 8) head) 0 fc (fc :: fl) := by
  cases fl with
  | nil =>
    simp only [flChain] at hc
    rw [if_neg (by simp [hc])]
    refine ⟨rfl, ?_, ?_⟩
    · rw [upd_ne _ _ _ _ (by omega), upd_same]
    · show upd (upd m (fc + 16) 0) (fc + 8) head (fc + 8) = 0
      rw [upd_same, hc]
  | cons h0 t =>
    obtain ⟨hp, hbk, ht⟩ := hc
    subst hp
    have hnz0 : 0 < head := hnz head (by simp)
    have hsep0 : NodeSep fc head := hsep head (by simp)
    have hsepn : fc + 24 ≤ head ∨ head + 24 ≤ fc := hsep0
    rw [if_pos (by omega : head ≠ 0)]
    refine ⟨rfl, ?_, ?_⟩
    · rw [upd_ne _ _ _ _ (by omega), upd_ne _ _ _ _ (by omega), upd_same]
    · have hfd : upd (upd (upd m (fc + 16) 0) (fc + 8) head) (head + 16) fc (fc + 8) =
          head := by
        rw [upd_ne _ _ _ _ (by omega), upd_same]
      rw [hfd]
      refine ⟨rfl, by rw [upd_same], ?_⟩
      have hfr : ∀ x ∈ t,
          (upd (upd (upd m (fc + 16) 0) (fc + 8) head) (head + 16) fc) (x + 8) =
            m (x + 8) ∧
          (upd (upd (upd m (fc + 16) 0) (fc + 8) head) (head + 16) fc) (x + 16) =
            m (x + 16) := by
        intro x hx
        have hsx : fc + 24 ≤ x ∨ x + 24 ≤ fc := hsep x (by simp [hx])
        have hs0x : head + 24 ≤ x ∨ x + 24 ≤ head :=
          (List.pairwise_cons.mp hpsep).1 x hx
        constructor
        · rw [upd_ne _ _ _ _ (by omega), upd_ne _ _ _ _ (by omega),
            upd_ne _ _ _ _ (by omega)]
        · rw [upd_ne _ _ _ _ (by omega), upd_ne _ _ _ _ (by omega),
            upd_ne _ _ _ _ (by omega)]
      have hfd0 : (upd (upd (upd m (fc + 16) 0) (fc + 8) head) (head + 16) fc)
          (head + 8) = m (head + 8) := by
        rw [upd_ne _ _ _ _ (by omega), upd_ne _ _ _ _ (by omega),
          upd_ne _ _ _ _ (by omega)]
      rw [hfd0]
      exact flChain_frame m _ t head (m (head + 8)) ht hfr

theorem flChain_push (s : S) (fc : Nat) (fl : List Nat)
    (hc : flChain s.mem 0 s.arena.free_list fl)
    (hsep : ∀ h ∈ fl, NodeSep fc h)
    (hpsep : fl.Pairwise NodeSep)
    (hnz : ∀ h ∈ fl, 0 < h) :
    flChain (push_front_to_free_list s fc).mem 0
      (push_front_to_free_list s fc).arena.free_list (fc :: fl) := by
  have := flChain_push_mem s.mem s.arena.free_list fc fl hc hsep hpsep hnz
  unfold push_front_to_free_list
  dsimp only
  exact this

theorem remove_from_free_list_eval (s : S) (fc : Nat) :
    (∀ x, (remove_from_free_list s fc).mem x =
      if x = fc + 16 then 0 else if x = fc + 8 then 0
      else if s.mem (fc + 8) ≠ 0 ∧ x = s.mem (fc + 8) + 16 then s.mem (fc + 16)
      else if s.mem (fc + 16) ≠ 0 ∧ x = s.mem (fc + 16) + 8 then s.mem (fc + 8)
      else s.mem x) ∧
    (remove_from_free_list s fc).arena.free_list =
      (if s.arena.free_list = fc then s.mem (fc + 8) else s.arena.free_list) ∧
    (remove_from_free_list s fc).arena.base = s.arena.base ∧
    (remove_from_free_list s fc).arena.bump = s.arena.bump ∧
    (remove_from_free_list s fc).arena.endp = s.arena.endp ∧
    (remove_from_free_list s fc).tcache = s.tcache ∧
    (remove_from_free_list s fc).locks = s.locks := by
  unfold remove_from_free_list
  dsimp only
  refine ⟨?_, rfl, rfl, rfl, rfl, rfl, rfl⟩
  intro x
  unfold upd
  simp only [apply_ite (fun (mm : Mem) => mm x)]
  split_ifs <;> first | rfl | omega

theorem flChain_fc_fd (m : Mem) (fc : Nat) (l2 : List Nat) :
    ∀ (l1 : List Nat) (bk0 p : Nat),
      flChain m bk0 p (l1 ++ fc :: l2) → m (fc + 8) = l2.headD 0 := by
  intro l1
  induction l1 with
  | nil =>
    intro bk0 p hc
    obtain ⟨-, -, ht⟩ := hc
    cases l2 with
    | nil => exact ht
    | cons h2 t2 => exact ht.1
  | cons a t ih =>
    intro bk0 p hc
    exact ih a (m (a + 8)) hc.2.2

theorem flChain_fc_bk (m : Mem) (fc : Nat) (l2 : List Nat) :
    ∀ (l1 : List Nat) (bk0 p : Nat),
      flChain m bk0 p (l1 ++ fc :: l2) → m (fc + 16) = l1.getLastD bk0 := by
  intro l1
  induction l1 with
  | nil =>
    intro bk0 p hc
    exact hc.2.1
  | cons a t ih =>
    intro bk0 p hc
    rw [List.getLastD_cons]
    exact ih a (m (a + 8)) hc.2.2

theorem flChain_remove_aux (m m3 : Mem) (fc fd bk : Nat) (l2 : List Nat)
    (hfd : fd = m (fc + 8)) (hbk : bk = m (fc + 16))
    (heval : ∀ x, m3 x =
      if x = fc + 16 then 0 else if x = fc + 8 then 0
      else if fd ≠ 0 ∧ x = fd + 16 then bk
      else if bk ≠ 0 ∧ x = bk + 8 then fd
      else m x) :
    ∀ (l1 : List Nat) (bk0 p : Nat),
      flChain m bk0 p (l1 ++ fc :: l2) →
      (l1 ++ fc :: l2).Pairwise NodeSep →
      (∀ h ∈ l1 ++ fc :: l2, 0 < h) →
      (∀ h ∈ l1 ++ fc :: l2, bk0 = 0 ∨ NodeSep bk0 h) →
      flChain m3 bk0 (if p = fc then fd else p) (l1 ++ l2) := by
  intro l1
  induction l1 with
  | nil =>
    intro bk0 p hc hpw hnz hb0
    simp only [List.nil_append] at hc hpw hnz hb0 ⊢
    obtain ⟨hp, hbk0eq, ht⟩ := hc
    rw [hp, if_pos rfl]
    have hbkv : bk = bk0 := by rw [hbk, hbk0eq]
    cases l2 with
    | nil =>
      have h0 : m (fc + 8) = 0 := ht
      show fd = 0
      omega
    | cons h2 t2 =>
      obtain ⟨hh2, hbk2, ht2⟩ := ht
      have hfdv : fd = h2 := by rw [hfd, hh2]
      have hsep2 : fc + 24 ≤ h2 ∨ h2 + 24 ≤ fc := (List.pairwise_cons.mp hpw).1 h2 (by simp)
      have hnz2 : 0 < h2 := hnz h2 (by simp)
      have hb02 : bk0 = 0 ∨ (bk0 + 24 ≤ h2 ∨ h2 + 24 ≤ bk0) := hb0 h2 (by simp)
      refine ⟨hfdv, ?_, ?_⟩
      · rw [heval]
        split_ifs <;> omega
      · have hfd8 : m3 (h2 + 8) = m (h2 + 8) := by
          rw [heval]
          split_ifs <;> omega
        rw [hfd8]
        refine flChain_frame m m3 t2 h2 (m (h2 + 8)) ht2 ?_
        intro x hx
        have hsfx : fc + 24 ≤ x ∨ x + 24 ≤ fc :=
          (List.pairwise_cons.mp hpw).1 x (by simp [hx])
        have hs2x : h2 + 24 ≤ x ∨ x + 24 ≤ h2 :=
          (List.pairwise_cons.mp (List.pairwise_cons.mp hpw).2).1 x hx
        have hb0x : bk0 = 0 ∨ (bk0 + 24 ≤ x ∨ x + 24 ≤ bk0) := hb0 x (by simp [hx])
        constructor <;> (rw [heval]; split_ifs <;> omega)
  | cons a l1' ih =>
    intro bk0 p hc hpw hnz hb0
    simp only [List.cons_append] at hc hpw hnz hb0 ⊢
    obtain ⟨hp, hbka, ht⟩ := hc
    rw [hp]
    have hrel := (List.pairwise_cons.mp hpw).1
    have hsepafc : a + 24 ≤ fc ∨ fc + 24 ≤ a := hrel fc (by simp)
    have hnza : 0 < a := hnz a (by simp)
    have hbkc : bk = l1'.getLastD a := by
      rw [hbk, flChain_fc_bk m fc l2 (a :: l1') bk0 a ⟨rfl, hbka, ht⟩,
        List.getLastD_cons]
    have hfdc : m (fc + 8) = l2.headD 0 :=
      flChain_fc_fd m fc l2 (a :: l1') bk0 a ⟨rfl, hbka, ht⟩
    have hfdfact : fd = 0 ∨ (a + 24 ≤ fd ∨ fd + 24 ≤ a) := by
      cases l2 with
      | nil => left; rw [hfd, hfdc]; rfl
      | cons h2 t2 =>
        right
        have : fd = h2 := by rw [hfd, hfdc]; rfl
        rw [this]
        exact hrel h2 (by simp)
    rw [if_neg (by omega)]
    refine ⟨rfl, ?_, ?_⟩
    · -- a's bk word is untouched
      have hbkfact : bk = a ∨ (a + 24 ≤ bk ∨ bk + 24 ≤ a) := by
        cases l1' with
        | nil => left; rw [hbkc]; rfl
        | cons b l1'' =>
          right
          have hm : bk ∈ b :: l1'' := by
            rw [hbkc, List.getLastD_cons]
            exact List.getLastD_mem_cons l1'' b
          exact hrel bk (List.mem_append_left _ hm)
      rw [heval]
      split_ifs <;> omega
    · -- the rest of the chain
      have hih := ih a (m (a + 8)) ht (List.pairwise_cons.mp hpw).2
        (fun h hh => hnz h (by simp [hh]))
        (fun h hh => Or.inr (hrel h hh))
      have hval : m3 (a + 8) = if m (a + 8) = fc then fd else m (a + 8) := by
        by_cases hcase : m (a + 8) = fc
        · rw [if_pos hcase]
          have hl1nil : l1' = [] := by
            cases l1' with
            | nil => rfl
            | cons b l1'' =>
              exfalso
              have hb : m (a + 8) = b := ht.1
              have : b + 24 ≤ fc ∨ fc + 24 ≤ b := by
                have hbfc := (List.pairwise_cons.mp (List.pairwise_cons.mp hpw).2).1
                exact hbfc fc (by simp) |>.imp id id
              omega
          have hbka2 : bk = a := by rw [hbkc, hl1nil]; rfl
          rw [heval]
          split_ifs <;> omega
        · rw [if_neg hcase]
          have hbknotcase : bk = a → m (a + 8) = fc := by
            intro hba
            cases l1' with
            | nil =>
              have hfceq : m (a + 8) = fc := ht.1
              exact hfceq
            | cons b l1'' =>
              exfalso
              have hm : bk ∈ b :: l1'' := by
                rw [hbkc, List.getLastD_cons]
                exact List.getLastD_mem_cons l1'' b
              have : a + 24 ≤ bk ∨ bk + 24 ≤ a :=
                hrel bk (List.mem_append_left _ hm)
              omega
          have hbkna : bk ≠ a := fun hba => hcase (hbknotcase hba)
          rw [heval]
          split_ifs <;> omega
      rw [hval]
      exact hih

theorem flChain_remove (s : S) (fc : Nat) (l1 l2 : List Nat)
    (hc : flChain s.mem 0 s.arena.free_list (l1 ++ fc :: l2))
    (hpw : (l1 ++ fc :: l2).Pairwise NodeSep)
    (hnz : ∀ h ∈ l1 ++ fc :: l2, 0 < h) :
    flChain (remove_from_free_list s fc).mem 0
      (remove_from_free_list s fc).arena.free_list (l1 ++ l2) := by
  obtain ⟨heval, hfl, -⟩ := remove_from_free_list_eval s fc
  have haux := flChain_remove_aux s.mem (remove_from_free_list s fc).mem fc
      (s.mem (fc + 8)) (s.mem (fc + 16)) l2 rfl rfl heval l1 0 s.arena.free_list
      hc hpw hnz (fun h _ => Or.inl rfl)
  rw [hfl]
  exact haux

theorem push_front_eval (s : S) (fc : Nat) :
    (∀ x, (push_front_to_free_list s fc).mem x =
      if s.arena.free_list ≠ 0 ∧ x = s.arena.free_list + 16 then fc
      else if x = fc + 8 then s.arena.free_list
      else if x = fc + 16 then 0
      else s.mem x) ∧
    (push_front_to_free_list s fc).arena.free_list = fc ∧
    (push_front_to_free_list s fc).arena.base = s.arena.base ∧
    (push_front_to_free_list s fc).arena.bump = s.arena.bump ∧
    (push_front_to_free_list s fc).arena.endp = s.arena.endp ∧
    (push_front_to_free_list s fc).tcache = s.tcache ∧
    (push_front_to_free_list s fc).locks = s.locks := by
  unfold push_front_to_free_list
  dsimp only
  refine ⟨?_, rfl, rfl, rfl, rfl, rfl, rfl⟩
  intro x
  unfold upd
  simp only [apply_ite (fun (mm : Mem) => mm x)]
  split_ifs <;> first | rfl | omega

theorem get_prev_set_prev_true (h : Nat) :
    get_prev_from_hdr (set_prev_bit_val h true) = 2 := by
  unfold set_prev_bit_val get_prev_from_hdr
  simp only [if_true]
  split_ifs <;> omega

theorem keep_prev_val_facts_true (old size : Nat) :
    (set_hdr_keep_prev_val old size true) % 2 = 1 ∧
    get_prev_from_hdr (set_hdr_keep_prev_val old size true) = get_prev_from_hdr old ∧
    get_size_from_hdr (set_hdr_keep_prev_val old size true) = size - size % 16 := by
  unfold set_hdr_keep_prev_val build_hdr_with_free_bit get_prev_from_hdr get_size_from_hdr
  simp only [if_true]
  omega

theorem tryFreeListAux_finds (s : S) (need : Nat) :
    ∀ (fl : List Nat) (fuel bk p fc : Nat),
      flChain s.mem bk p fl →
      (∀ h ∈ fl, chunk_is_free s.mem h = true) →
      (∀ h ∈ fl, 0 < h) →
      fl.length ≤ fuel →
      fl.find? (fun h => need ≤ get_chunk_size s.mem h) = some fc →
      tryFreeListAux s need fuel p = some (split_free_chunk s fc need) := by
  intro fl
  induction fl with
  | nil =>
    intro fuel bk p fc hc hfree hnz hlen hfind
    simp [List.find?] at hfind
  | cons h t ih =>
    intro fuel bk p fc hc hfree hnz hlen hfind
    obtain ⟨hp, hbk, ht⟩ := hc
    cases fuel with
    | zero => simp at hlen
    | succ k =>
      rw [hp]
      have hh0 : 0 < h := hnz h (by simp)
      obtain ⟨q, hq⟩ : ∃ q, h = q + 1 := ⟨h - 1, by omega⟩
      rw [hq]
      rw [show tryFreeListAux s need (k + 1) (q + 1) =
          (if ¬ chunk_is_free s.mem (q + 1) then
            tryFreeListAux s need k (s.mem (q + 1 + 8))
           else if need ≤ get_chunk_size s.mem (q + 1) then
             some (split_free_chunk s (q + 1) need)
           else tryFreeListAux s need k (s.mem (q + 1 + 8))) from rfl]
      rw [← hq]
      rw [if_neg (by simp [hfree h (by simp)])]
      by_cases hpred : need ≤ get_chunk_size s.mem h
      · have hfc : fc = h := by
          rw [List.find?_cons_of_pos _ (by simpa using hpred)] at hfind
          cases hfind
          rfl
        rw [if_pos hpred, hfc]
      · rw [if_neg hpred]
        rw [List.find?_cons_of_neg _ (by simpa using hpred)] at hfind
        exact ih k h (s.mem (h + 8)) fc ht
          (fun x hx => hfree x (by simp [hx]))
          (fun x hx => hnz x (by simp [hx]))
          (by simp at hlen; omega) hfind

theorem try_free_list_finds (s : S) (need fc : Nat) (fl : List Nat)
    (hc : flChain s.mem 0 s.arena.free_list fl)
    (hfree : ∀ h ∈ fl, chunk_is_free s.mem h = true)
    (hnz : ∀ h ∈ fl, 0 < h)
    (hlen : fl.length ≤ s.arena.endp + 1)
    (hfind : fl.find? (fun h => need ≤ get_chunk_size s.mem h) = some fc) :
    try_free_list s need = some (split_free_chunk s fc need) := by
  unfold try_free_list
  exact tryFreeListAux_finds s need fl (s.arena.endp + 1) 0 s.arena.free_list fc
    hc hfree hnz hlen hfind

theorem fc_not_mem_rest {fc : Nat} {l1 l2 : List Nat}
    (hpw : (l1 ++ fc :: l2).Pairwise NodeSep) : fc ∉ l1 ∧ fc ∉ l2 := by
  constructor
  · intro hmem
    have h1 := (List.pairwise_append.mp hpw).2.2 fc hmem fc (by simp)
    unfold NodeSep at h1
    omega
  · intro hmem
    have h2 := (List.pairwise_cons.mp (List.pairwise_append.mp hpw).2.1).1 fc hmem
    unfold NodeSep at h2
    omega

theorem split_free_chunk_split_case (s : S) (fc need : Nat) (l1 l2 : List Nat)
    (hc : flChain s.mem 0 s.arena.free_list (l1 ++ fc :: l2))
    (hpw : (l1 ++ fc :: l2).Pairwise NodeSep)
    (hnz : ∀ h ∈ l1 ++ fc :: l2, 0 < h)
    (hsep : ∀ h ∈ l1 ++ fc :: l2, h ≠ fc →
      h + 24 ≤ fc ∨ fc + get_chunk_size s.mem fc + 8 ≤ h)
    (h16 : need % 16 = 0) (hneed : 32 ≤ need)
    (hcase : need + get_free_chunk_min_size ≤ get_chunk_size s.mem fc)
    (hbump : fc + get_chunk_size s.mem fc ≤ s.arena.bump)
    (hfc0 : 0 < fc) :
    (split_free_chunk s fc need).1 = fc ∧
    (split_free_chunk s fc need).2.arena.free_list = fc + need ∧
    (split_free_chunk s fc need).2.arena.bump = s.arena.bump ∧
    chunk_is_free (split_free_chunk s fc need).2.mem fc = false ∧
    get_chunk_size (split_free_chunk s fc need).2.mem fc = need ∧
    get_prev_from_hdr ((split_free_chunk s fc need).2.mem fc) =
      get_prev_from_hdr (s.mem fc) ∧
    chunk_is_free (split_free_chunk s fc need).2.mem (fc + need) = true ∧
    get_chunk_size (split_free_chunk s fc need).2.mem (fc + need) =
      get_chunk_size s.mem fc - need ∧
    get_prev_from_hdr ((split_free_chunk s fc need).2.mem (fc + need)) = 2 ∧
    (split_free_chunk s fc need).2.mem (fc + get_chunk_size s.mem fc - 8) =
      build_hdr_with_free_bit (get_chunk_size s.mem fc - need) true ∧
    flChain (split_free_chunk s fc need).2.mem 0
      ((split_free_chunk s fc need).2.arena.free_list)
      ((fc + need) :: (l1 ++ l2)) := by
  have hcsz16 : get_chunk_size s.mem fc % 16 = 0 := by
    unfold get_chunk_size get_size_from_hdr; omega
  have h48 : get_free_chunk_min_size = 48 := rfl
  rw [h48] at hcase
  -- identify fd, bk and the list head
  have hfdid : s.mem (fc + 8) = l2.headD 0 :=
    flChain_fc_fd s.mem fc l2 l1 0 s.arena.free_list hc
  have hbkid : s.mem (fc + 16) = l1.getLastD 0 :=
    flChain_fc_bk s.mem fc l2 l1 0 s.arena.free_list hc
  have hfcnm := fc_not_mem_rest hpw
  have hfdsep : s.mem (fc + 8) = 0 ∨
      (s.mem (fc + 8) + 24 ≤ fc ∨ fc + get_chunk_size s.mem fc + 8 ≤ s.mem (fc + 8)) := by
    cases l2 with
    | nil => left; rw [hfdid]; rfl
    | cons h2 t2 =>
      right
      have hm : s.mem (fc + 8) = h2 := by rw [hfdid]; rfl
      rw [hm]
      exact hsep h2 (by simp) (fun he => hfcnm.2 (he ▸ (by simp : h2 ∈ h2 :: t2)))
  have hbksep : s.mem (fc + 16) = 0 ∨
      (s.mem (fc + 16) + 24 ≤ fc ∨ fc + get_chunk_size s.mem fc + 8 ≤ s.mem (fc + 16)) := by
    cases l1 with
    | nil => left; rw [hbkid]; rfl
    | cons b l1' =>
      right
      have hm : s.mem (fc + 16) ∈ b :: l1' := by
        rw [hbkid, List.getLastD_cons]
        exact List.getLastD_mem_cons l1' b
      refine hsep (s.mem (fc + 16)) (List.mem_append_left _ hm) ?_
      intro he
      exact hfcnm.1 (he ▸ hm)
  have hheadsep : s.arena.free_list = fc ∨ s.arena.free_list = 0 ∨
      (s.arena.free_list + 24 ≤ fc ∨
       fc + get_chunk_size s.mem fc + 8 ≤ s.arena.free_list) := by
    cases l1 with
    | nil => left; exact hc.1.symm ▸ rfl
    | cons b l1' =>
      right; right
      have hm : s.arena.free_list = b := hc.1
      rw [hm]
      exact hsep b (by simp) (fun he => hfcnm.1 (he ▸ (by simp : b ∈ b :: l1')))
  obtain ⟨hrm, hrfl, hrbase, hrbump, hrendp, hrtc, hrlk⟩ := remove_from_free_list_eval s fc
  have hm1fc : (remove_from_free_list s fc).mem fc = s.mem fc := by
    rw [hrm]
    split_ifs <;> omega
  unfold split_free_chunk
  dsimp only
  rw [if_pos (by rw [h48]; exact hcase)]
  set s1 := remove_from_free_list s fc with hs1
  have hs3 : set_next_chunk_hdr_prev
      { s1 with mem := set_hdr_keep_prev s1.mem fc need false } fc true =
      { s1 with mem := upd (set_hdr_keep_prev s1.mem fc need false) (fc + need) (set_prev_bit_val (set_hdr_keep_prev s1.mem fc need false (fc + need)) true) } := by
    unfold set_next_chunk_hdr_prev set_prev_bit_in_hdr
    dsimp only
    rw [show get_next_chunk_hdr (set_hdr_keep_prev s1.mem fc need false) fc =
        fc + need from ?hge]
    case hge =>
      unfold get_next_chunk_hdr get_chunk_size set_hdr_keep_prev
      rw [upd_same]
      have hf := (keep_prev_val_facts (s1.mem fc) need).2.2
      omega
    rw [if_pos (by rw [hrbump]; omega)]
  rw [hs3]
  dsimp only
  unfold set_hdr_keep_prev set_ftr
  have hH : (if s.arena.free_list = fc then s.mem (fc + 8) else s.arena.free_list) = 0 ∨
      ((if s.arena.free_list = fc then s.mem (fc + 8) else s.arena.free_list) + 24 ≤ fc ∨
       fc + get_chunk_size s.mem fc + 8 ≤
         (if s.arena.free_list = fc then s.mem (fc + 8) else s.arena.free_list)) := by
    by_cases hfl : s.arena.free_list = fc
    · simp only [if_pos hfl]; exact hfdsep
    · simp only [if_neg hfl]
      rcases hheadsep with h | h
      · exact absurd h hfl
      · exact h
  refine ⟨rfl, (push_front_eval _ _).2.1, ?_, ?_, ?_, ?_, ?_, ?_, ?_, ?_, ?_⟩
  · rw [(push_front_eval _ _).2.2.2.1]
    dsimp only
    exact hrbump
  · unfold chunk_is_free get_free_bit_from_hdr
    rw [(push_front_eval _ _).1]
    dsimp only
    rw [hrfl]
    rw [if_neg (by rcases hH with h | h | h <;> omega)]
    rw [if_neg (by omega), if_neg (by omega)]
    rw [upd_ne _ _ _ _ (by omega : fc ≠ fc + need + 16)]
    rw [upd_ne _ _ _ _ (by omega : fc ≠ fc + need + 8)]
    rw [upd_ne _ _ _ _ (by unfold WORD; omega :
      fc ≠ fc + need + (get_chunk_size s.mem fc - need) - WORD)]
    rw [upd_ne _ _ _ _ (by omega : fc ≠ fc + need)]
    rw [upd_ne _ _ _ _ (by omega : fc ≠ fc + need)]
    rw [upd_same]
    rw [hm1fc]
    have hf := keep_prev_val_facts (s.mem fc) need
    simp only [decide_eq_false_iff_not]
    omega
  · unfold get_chunk_size
    rw [(push_front_eval _ _).1]
    dsimp only
    rw [hrfl]
    rw [if_neg (by rcases hH with h | h | h <;> omega)]
    rw [if_neg (by omega), if_neg (by omega)]
    rw [upd_ne _ _ _ _ (by omega : fc ≠ fc + need + 16)]
    rw [upd_ne _ _ _ _ (by omega : fc ≠ fc + need + 8)]
    rw [upd_ne _ _ _ _ (by unfold WORD get_size_from_hdr; omega :
      fc ≠ fc + need + (get_size_from_hdr (s.mem fc) - need) - WORD)]
    rw [upd_ne _ _ _ _ (by omega : fc ≠ fc + need)]
    rw [upd_ne _ _ _ _ (by omega : fc ≠ fc + need)]
    rw [upd_same]
    rw [hm1fc]
    have hf := (keep_prev_val_facts (s.mem fc) need).2.2
    unfold get_size_from_hdr at hf ⊢
    omega
  · rw [(push_front_eval _ _).1]
    dsimp only
    rw [hrfl]
    rw [if_neg (by rcases hH with h | h | h <;> omega)]
    rw [if_neg (by omega), if_neg (by omega)]
    rw [upd_ne _ _ _ _ (by omega : fc ≠ fc + need + 16)]
    rw [upd_ne _ _ _ _ (by omega : fc ≠ fc + need + 8)]
    rw [upd_ne _ _ _ _ (by unfold WORD; omega :
      fc ≠ fc + need + (get_chunk_size s.mem fc - need) - WORD)]
    rw [upd_ne _ _ _ _ (by omega : fc ≠ fc + need)]
    rw [upd_ne _ _ _ _ (by omega : fc ≠ fc + need)]
    rw [upd_same]
    rw [hm1fc]
    exact (keep_prev_val_facts (s.mem fc) need).2.1
  · unfold chunk_is_free get_free_bit_from_hdr
    rw [(push_front_eval _ _).1]
    dsimp only
    rw [hrfl]
    rw [if_neg (by rcases hH with h | h | h <;> omega)]
    rw [if_neg (by omega), if_neg (by omega)]
    rw [upd_ne _ _ _ _ (by omega : fc + need ≠ fc + need + 16)]
    rw [upd_ne _ _ _ _ (by omega : fc + need ≠ fc + need + 8)]
    rw [upd_ne _ _ _ _ (by unfold WORD; omega :
      fc + need ≠ fc + need + (get_chunk_size s.mem fc - need) - WORD)]
    rw [upd_same]
    have hf := (keep_prev_val_facts_true
      (upd (upd s1.mem fc (set_hdr_keep_prev_val (s1.mem fc) need false)) (fc + need)
        (set_prev_bit_val
          (upd s1.mem fc (set_hdr_keep_prev_val (s1.mem fc) need false) (fc + need)) true)
        (fc + need))
      (get_chunk_size s.mem fc - need)).1
    simp only [decide_eq_true_eq]
    omega
  · unfold get_chunk_size
    rw [(push_front_eval _ _).1]
    dsimp only
    rw [hrfl]
    rw [if_neg (by rcases hH with h | h | h <;> omega)]
    rw [if_neg (by omega), if_neg (by omega)]
    rw [upd_ne _ _ _ _ (by omega : fc + need ≠ fc + need + 16)]
    rw [upd_ne _ _ _ _ (by omega : fc + need ≠ fc + need + 8)]
    rw [upd_ne _ _ _ _ (by unfold WORD get_size_from_hdr; omega :
      fc + need ≠ fc + need + (get_size_from_hdr (s.mem fc) - need) - WORD)]
    rw [upd_same]
    have hf := (keep_prev_val_facts_true
      (upd (upd s1.mem fc (set_hdr_keep_prev_val (s1.mem fc) need false)) (fc + need)
        (set_prev_bit_val
          (upd s1.mem fc (set_hdr_keep_prev_val (s1.mem fc) need false) (fc + need)) true)
        (fc + need))
      (get_size_from_hdr (s.mem fc) - need)).2.2
    unfold get_size_from_hdr at hf ⊢
    omega
  · rw [(push_front_eval _ _).1]
    dsimp only
    rw [hrfl]
    rw [if_neg (by rcases hH with h | h | h <;> omega)]
    rw [if_neg (by omega), if_neg (by omega)]
    rw [upd_ne _ _ _ _ (by omega : fc + need ≠ fc + need + 16)]
    rw [upd_ne _ _ _ _ (by omega : fc + need ≠ fc + need + 8)]
    rw [upd_ne _ _ _ _ (by unfold WORD; omega :
      fc + need ≠ fc + need + (get_chunk_size s.mem fc - need) - WORD)]
    rw [upd_same]
    rw [(keep_prev_val_facts_true
      (upd (upd s1.mem fc (set_hdr_keep_prev_val (s1.mem fc) need false)) (fc + need)
        (set_prev_bit_val
          (upd s1.mem fc (set_hdr_keep_prev_val (s1.mem fc) need false) (fc + need)) true)
        (fc + need))
      (get_chunk_size s.mem fc - need)).2.1]
    rw [upd_same]
    exact get_prev_set_prev_true _
  · rw [(push_front_eval _ _).1]
    dsimp only
    rw [hrfl]
    rw [if_neg (by rcases hH with h | h | h <;> omega)]
    rw [if_neg (by omega), if_neg (by omega)]
    rw [upd_ne _ _ _ _ (by omega :
      fc + get_chunk_size s.mem fc - 8 ≠ fc + need + 16)]
    rw [upd_ne _ _ _ _ (by omega :
      fc + get_chunk_size s.mem fc - 8 ≠ fc + need + 8)]
    rw [show fc + need + (get_chunk_size s.mem fc - need) - WORD =
      fc + get_chunk_size s.mem fc - 8 from by unfold WORD; omega]
    rw [upd_same]
  · have chain1 := flChain_remove s fc l1 l2 hc hpw hnz
    have hmem_sub : ∀ h, h ∈ l1 ++ l2 → h ∈ l1 ++ fc :: l2 := by
      intro h hh
      rcases List.mem_append.mp hh with h1 | h2
      · exact List.mem_append_left _ h1
      · exact List.mem_append_right _ (by simp [h2])
    have hne_fc : ∀ h, h ∈ l1 ++ l2 → h ≠ fc := by
      intro h hh he
      rcases List.mem_append.mp hh with h1 | h2
      · exact hfcnm.1 (he ▸ h1)
      · exact hfcnm.2 (he ▸ h2)
    refine flChain_push _ _ _ ?_ ?_ ?_ ?_
    · dsimp only
      refine flChain_frame s1.mem _ (l1 ++ l2) 0 s1.arena.free_list chain1 ?_
      intro h hh
      have hs := hsep h (hmem_sub h hh) (hne_fc h hh)
      constructor
      · rw [upd_ne _ _ _ _ (by omega : h + 8 ≠ fc + need + 16)]
        rw [upd_ne _ _ _ _ (by omega : h + 8 ≠ fc + need + 8)]
        rw [upd_ne _ _ _ _ (by unfold WORD; omega :
          h + 8 ≠ fc + need + (get_chunk_size s.mem fc - need) - WORD)]
        rw [upd_ne _ _ _ _ (by omega : h + 8 ≠ fc + need)]
        rw [upd_ne _ _ _ _ (by omega : h + 8 ≠ fc + need)]
        rw [upd_ne _ _ _ _ (by omega : h + 8 ≠ fc)]
      · rw [upd_ne _ _ _ _ (by omega : h + 16 ≠ fc + need + 16)]
        rw [upd_ne _ _ _ _ (by omega : h + 16 ≠ fc + need + 8)]
        rw [upd_ne _ _ _ _ (by unfold WORD; omega :
          h + 16 ≠ fc + need + (get_chunk_size s.mem fc - need) - WORD)]
        rw [upd_ne _ _ _ _ (by omega : h + 16 ≠ fc + need)]
        rw [upd_ne _ _ _ _ (by omega : h + 16 ≠ fc + need)]
        rw [upd_ne _ _ _ _ (by omega : h + 16 ≠ fc)]
    · intro h hh
      have hs := hsep h (hmem_sub h hh) (hne_fc h hh)
      show fc + need + 24 ≤ h ∨ h + 24 ≤ fc + need
      omega
    · exact hpw.sublist (List.Sublist.append_left (List.sublist_cons_self fc l2) l1)
    · intro h hh
      exact hnz h (hmem_sub h hh)

theorem split_free_chunk_whole_case (s : S) (fc need : Nat) (l1 l2 : List Nat)
    (hc : flChain s.mem 0 s.arena.free_list (l1 ++ fc :: l2))
    (hpw : (l1 ++ fc :: l2).Pairwise NodeSep)
    (hnz : ∀ h ∈ l1 ++ fc :: l2, 0 < h)
    (hsep : ∀ h ∈ l1 ++ fc :: l2, h ≠ fc →
      h + 24 ≤ fc ∨ fc + get_chunk_size s.mem fc + 8 ≤ h)
    (hcszge : 32 ≤ get_chunk_size s.mem fc)
    (hcase : get_chunk_size s.mem fc < need + get_free_chunk_min_size)
    (hfc0 : 0 < fc) :
    (split_free_chunk s fc need).1 = fc ∧
    (split_free_chunk s fc need).2.arena.bump = s.arena.bump ∧
    (split_free_chunk s fc need).2.arena.endp = s.arena.endp ∧
    chunk_is_free (split_free_chunk s fc need).2.mem fc = false ∧
    get_chunk_size (split_free_chunk s fc need).2.mem fc = get_chunk_size s.mem fc ∧
    get_prev_from_hdr ((split_free_chunk s fc need).2.mem fc) =
      get_prev_from_hdr (s.mem fc) ∧
    flChain (split_free_chunk s fc need).2.mem 0
      ((split_free_chunk s fc need).2.arena.free_list) (l1 ++ l2) := by
  have hcsz16 : get_chunk_size s.mem fc % 16 = 0 := by
    unfold get_chunk_size get_size_from_hdr; omega
  have hfdid : s.mem (fc + 8) = l2.headD 0 :=
    flChain_fc_fd s.mem fc l2 l1 0 s.arena.free_list hc
  have hbkid : s.mem (fc + 16) = l1.getLastD 0 :=
    flChain_fc_bk s.mem fc l2 l1 0 s.arena.free_list hc
  have hfcnm := fc_not_mem_rest hpw
  have hfdsep : s.mem (fc + 8) = 0 ∨
      (s.mem (fc + 8) + 24 ≤ fc ∨ fc + get_chunk_size s.mem fc + 8 ≤ s.mem (fc + 8)) := by
    cases l2 with
    | nil => left; rw [hfdid]; rfl
    | cons h2 t2 =>
      right
      have hm : s.mem (fc + 8) = h2 := by rw [hfdid]; rfl
      rw [hm]
      exact hsep h2 (by simp) (fun he => hfcnm.2 (he ▸ (by simp : h2 ∈ h2 :: t2)))
  have hbksep : s.mem (fc + 16) = 0 ∨
      (s.mem (fc + 16) + 24 ≤ fc ∨ fc + get_chunk_size s.mem fc + 8 ≤ s.mem (fc + 16)) := by
    cases l1 with
    | nil => left; rw [hbkid]; rfl
    | cons b l1' =>
      right
      have hm : s.mem (fc + 16) ∈ b :: l1' := by
        rw [hbkid, List.getLastD_cons]
        exact List.getLastD_mem_cons l1' b
      refine hsep (s.mem (fc + 16)) (List.mem_append_left _ hm) ?_
      intro he
      exact hfcnm.1 (he ▸ hm)
  obtain ⟨hrm, hrfl, hrbase, hrbump, hrendp, hrtc, hrlk⟩ := remove_from_free_list_eval s fc
  have hm1fc : (remove_from_free_list s fc).mem fc = s.mem fc := by
    rw [hrm]
    split_ifs <;> omega
  unfold split_free_chunk
  dsimp only
  rw [if_neg (by omega)]
  set s1 := remove_from_free_list s fc with hs1
  unfold set_hdr_keep_prev
  have hval : upd s1.mem fc
      (set_hdr_keep_prev_val (s1.mem fc) (get_chunk_size s.mem fc) false) fc =
      set_hdr_keep_prev_val (s.mem fc) (get_chunk_size s.mem fc) false := by
    rw [upd_same, hm1fc]
  have hfacts := keep_prev_val_facts (s.mem fc) (get_chunk_size s.mem fc)
  have hnxt : get_next_chunk_hdr (upd s1.mem fc
      (set_hdr_keep_prev_val (s1.mem fc) (get_chunk_size s.mem fc) false)) fc =
      fc + get_chunk_size s.mem fc := by
    unfold get_next_chunk_hdr get_chunk_size
    rw [upd_same, hm1fc]
    unfold get_size_from_hdr
    unfold set_hdr_keep_prev_val build_hdr_with_free_bit get_prev_from_hdr
    simp only [Bool.false_eq_true, if_false]
    omega
  unfold set_next_chunk_hdr_prev set_prev_bit_in_hdr
  dsimp only
  rw [hnxt]
  have hchain1 := flChain_remove s fc l1 l2 hc hpw hnz
  have hmem_sub : ∀ h, h ∈ l1 ++ l2 → h ∈ l1 ++ fc :: l2 := by
    intro h hh
    rcases List.mem_append.mp hh with h1 | h2
    · exact List.mem_append_left _ h1
    · exact List.mem_append_right _ (by simp [h2])
  have hne_fc : ∀ h, h ∈ l1 ++ l2 → h ≠ fc := by
    intro h hh he
    rcases List.mem_append.mp hh with h1 | h2
    · exact hfcnm.1 (he ▸ h1)
    · exact hfcnm.2 (he ▸ h2)
  split
  · refine ⟨rfl, rfl, rfl, ?_, ?_, ?_, ?_⟩
    · unfold chunk_is_free get_free_bit_from_hdr
      dsimp only
      rw [upd_ne _ _ _ _ (by omega : fc ≠ fc + get_chunk_size s.mem fc), hval]
      simp only [decide_eq_false_iff_not]
      omega
    · unfold get_chunk_size
      dsimp only
      rw [upd_ne _ _ _ _ (by
        unfold get_size_from_hdr
        unfold get_chunk_size get_size_from_hdr at hcszge
        omega : fc ≠ fc + get_size_from_hdr (s.mem fc))]
      rw [upd_same, hm1fc]
      have hf2 := keep_prev_val_facts (s.mem fc) (get_size_from_hdr (s.mem fc))
      unfold get_size_from_hdr at hf2 ⊢
      omega
    · dsimp only
      rw [upd_ne _ _ _ _ (by omega : fc ≠ fc + get_chunk_size s.mem fc), hval]
      exact hfacts.2.1
    · dsimp only
      refine flChain_frame s1.mem _ (l1 ++ l2) 0 s1.arena.free_list hchain1 ?_
      intro h hh
      have hs := hsep h (hmem_sub h hh) (hne_fc h hh)
      constructor
      · rw [upd_ne _ _ _ _ (by omega : h + 8 ≠ fc + get_chunk_size s.mem fc)]
        rw [upd_ne _ _ _ _ (by omega : h + 8 ≠ fc)]
      · rw [upd_ne _ _ _ _ (by omega : h + 16 ≠ fc + get_chunk_size s.mem fc)]
        rw [upd_ne _ _ _ _ (by omega : h + 16 ≠ fc)]
  · refine ⟨rfl, rfl, rfl, ?_, ?_, ?_, ?_⟩
    · unfold chunk_is_free get_free_bit_from_hdr
      dsimp only
      rw [hval]
      simp only [decide_eq_false_iff_not]
      omega
    · unfold get_chunk_size
      dsimp only
      rw [upd_same, hm1fc]
      have hf2 := keep_prev_val_facts (s.mem fc) (get_size_from_hdr (s.mem fc))
      unfold get_size_from_hdr at hf2 ⊢
      omega
    · dsimp only
      rw [hval]
      exact hfacts.2.1
    · dsimp only
      refine flChain_frame s1.mem _ (l1 ++ l2) 0 s1.arena.free_list hchain1 ?_
      intro h hh
      have hs := hsep h (hmem_sub h hh) (hne_fc h hh)
      constructor
      · rw [upd_ne _ _ _ _ (by omega : h + 8 ≠ fc)]
      · rw [upd_ne _ _ _ _ (by omega : h + 16 ≠ fc)]

end FreeListLemmas

section ClaimC8

open MyAlloc

/-- **C8.** `try_free_list` selects the first chunk in free-list order whose
size is at least `need` (first-fit) and hands it to `split_free_chunk`.
If that chunk's size is at least `need + MIN_CHUNK`, it is split: the low
`need` bytes become an in-use chunk (size rewritten, FREE clear,
PREV_IN_USE preserved), the remainder gets a free header (FREE set,
PREV_IN_USE set) and a footer, and is linked at the head of the free list.
Otherwise the whole chunk is unlinked from the free list and marked in use
with its size unchanged.  The hypotheses state that the in-memory free list
is a well-formed doubly-linked list of positive, pairwise-separated free
chunks containing `fc` with the stated first-fit property. -/
theorem c8_first_fit_and_split (s : S) (need fc : Nat) (l1 l2 : List Nat)
    (hc : flChain s.mem 0 s.arena.free_list (l1 ++ fc :: l2))
    (hpw : (l1 ++ fc :: l2).Pairwise NodeSep)
    (hnz : ∀ h ∈ l1 ++ fc :: l2, 0 < h)
    (hfree : ∀ h ∈ l1 ++ fc :: l2, chunk_is_free s.mem h = true)
    (hlen : (l1 ++ fc :: l2).length ≤ s.arena.endp + 1)
    (hfind : (l1 ++ fc :: l2).find? (fun h => need ≤ get_chunk_size s.mem h) = some fc)
    (hsep : ∀ h ∈ l1 ++ fc :: l2, h ≠ fc →
      h + 24 ≤ fc ∨ fc + get_chunk_size s.mem fc + 8 ≤ h)
    (h16 : need % 16 = 0) (hneed : 32 ≤ need)
    (hcszge : 32 ≤ get_chunk_size s.mem fc)
    (hbump : fc + get_chunk_size s.mem fc ≤ s.arena.bump)
    (hfc0 : 0 < fc) :
    try_free_list s need = some (split_free_chunk s fc need) ∧
    (need + get_free_chunk_min_size ≤ get_chunk_size s.mem fc →
      (split_free_chunk s fc need).1 = fc ∧
      (split_free_chunk s fc need).2.arena.free_list = fc + need ∧
      (split_free_chunk s fc need).2.arena.bump = s.arena.bump ∧
      chunk_is_free (split_free_chunk s fc need).2.mem fc = false ∧
      get_chunk_size (split_free_chunk s fc need).2.mem fc = need ∧
      get_prev_from_hdr ((split_free_chunk s fc need).2.mem fc) =
        get_prev_from_hdr (s.mem fc) ∧
      chunk_is_free (split_free_chunk s fc need).2.mem (fc + need) = true ∧
      get_chunk_size (split_free_chunk s fc need).2.mem (fc + need) =
        get_chunk_size s.mem fc - need ∧
      get_prev_from_hdr ((split_free_chunk s fc need).2.mem (fc + need)) = 2 ∧
      (split_free_chunk s fc need).2.mem (fc + get_chunk_size s.mem fc - 8) =
        build_hdr_with_free_bit (get_chunk_size s.mem fc - need) true ∧
      flChain (split_free_chunk s fc need).2.mem 0
        ((split_free_chunk s fc need).2.arena.free_list)
        ((fc + need) :: (l1 ++ l2))) ∧
    (get_chunk_size s.mem fc < need + get_free_chunk_min_size →
      (split_free_chunk s fc need).1 = fc ∧
      (split_free_chunk s fc need).2.arena.bump = s.arena.bump ∧
      chunk_is_free (split_free_chunk s fc need).2.mem fc = false ∧
      get_chunk_size (split_free_chunk s fc need).2.mem fc =
        get_chunk_size s.mem fc ∧
      get_prev_from_hdr ((split_free_chunk s fc need).2.mem fc) =
        get_prev_from_hdr (s.mem fc) ∧
      flChain (split_free_chunk s fc need).2.mem 0
        ((split_free_chunk s fc need).2.arena.free_list) (l1 ++ l2)) := by
  refine ⟨try_free_list_finds s need fc (l1 ++ fc :: l2) hc hfree hnz hlen hfind,
    ?_, ?_⟩
  · intro hcase
    obtain ⟨a1, a2, a3, a4, a5, a6, a7, a8, a9, a10, a11⟩ :=
      split_free_chunk_split_case s fc need l1 l2 hc hpw hnz hsep h16 hneed
        hcase hbump hfc0
    exact ⟨a1, a2, a3, a4, a5, a6, a7, a8, a9, a10, a11⟩
  · intro hcase
    obtain ⟨b1, b2, b3, b4, b5, b6, b7⟩ :=
      split_free_chunk_whole_case s fc need l1 l2 hc hpw hnz hsep hcszge
        hcase hfc0
    exact ⟨b1, b2, b4, b5, b6, b7⟩

/-- Witness for `c8_first_fit_and_split`: in `c8state` the free list is the
single 224-byte chunk at offset 24, and an 80-byte request selects and
splits it. -/
theorem c8_first_fit_and_split_witness :
    (flChain c8state.mem 0 c8state.arena.free_list ([] ++ 24 :: []) ∧
     (([] ++ 24 :: [] : List Nat)).Pairwise NodeSep ∧
     (∀ h ∈ (([] ++ 24 :: [] : List Nat)), 0 < h) ∧
     (∀ h ∈ (([] ++ 24 :: [] : List Nat)), chunk_is_free c8state.mem h = true) ∧
     (([] ++ 24 :: [] : List Nat)).length ≤ c8state.arena.endp + 1 ∧
     (([] ++ 24 :: [] : List Nat)).find?
       (fun h => 80 ≤ get_chunk_size c8state.mem h) = some 24 ∧
     (∀ h ∈ (([] ++ 24 :: [] : List Nat)), h ≠ 24 →
       h + 24 ≤ 24 ∨ 24 + get_chunk_size c8state.mem 24 + 8 ≤ h) ∧
     80 % 16 = 0 ∧ 32 ≤ 80 ∧ 32 ≤ get_chunk_size c8state.mem 24 ∧
     24 + get_chunk_size c8state.mem 24 ≤ c8state.arena.bump ∧ 0 < 24) ∧
    try_free_list c8state 80 = some (split_free_chunk c8state 24 80) :=
  ⟨⟨⟨by decide, by decide, show c8state.mem (24 + 8) = 0 by decide⟩, by simp,
    by decide, by decide, by decide,
    by decide, by decide, by decide, by decide, by decide, by decide, by decide⟩,
   (c8_first_fit_and_split c8state 80 24 [] []
     ⟨by decide, by decide, show c8state.mem (24 + 8) = 0 by decide⟩ (by simp)
     (by decide) (by decide)
     (by decide) (by decide) (by decide) (by decide) (by decide) (by decide)
     (by decide) (by decide)).1⟩

end ClaimC8

section TilingBasics

open MyAlloc

theorem sumSizes_append (l1 l2 : List Chunk) :
    sumSizes (l1 ++ l2) = sumSizes l1 + sumSizes l2 := by
  induction l1 with
  | nil => simp [sumSizes]
  | cons c t ih =>
    show c.size + sumSizes (t ++ l2) = c.size + sumSizes t + sumSizes l2
    rw [ih]
    omega

theorem endPU_append (l1 l2 : List Chunk) :
    ∀ pu, endPU pu (l1 ++ l2) = endPU (endPU pu l1) l2 := by
  induction l1 with
  | nil => intro pu; rfl
  | cons c t ih => intro pu; exact ih (nextPU c)

theorem tiled_cons (m : Mem) (pos : Nat) (pu : Bool) (c : Chunk) (t : List Chunk) :
    tiled m pos pu (c :: t) ↔
      (m pos = c.size + (if c.st = Status.free then 1 else 0) + (if pu then 2 else 0) ∧
       c.size % 16 = 0 ∧ 32 ≤ c.size ∧
       (c.st = Status.free → m (pos + c.size - 8) = c.size + 1 ∧ pu = true) ∧
       tiled m (pos + c.size) (nextPU c) t) := Iff.rfl

theorem tiled_append (m : Mem) (l1 l2 : List Chunk) :
    ∀ (pos : Nat) (pu : Bool),
      tiled m pos pu (l1 ++ l2) ↔
      (tiled m pos pu l1 ∧ tiled m (pos + sumSizes l1) (endPU pu l1) l2) := by
  induction l1 with
  | nil =>
    intro pos pu
    constructor
    · intro h
      refine ⟨trivial, ?_⟩
      simpa [sumSizes] using h
    · intro h
      simpa [sumSizes] using h.2
  | cons c t ih =>
    intro pos pu
    simp only [List.cons_append, tiled_cons]
    constructor
    · rintro ⟨h1, h2, h3, h4, h5⟩
      have hsplit := (ih (pos + c.size) (nextPU c)).mp h5
      refine ⟨⟨h1, h2, h3, h4, hsplit.1⟩, ?_⟩
      have e1 : pos + sumSizes (c :: t) = pos + c.size + sumSizes t := by
        simp [sumSizes]; omega
      rw [e1]
      exact hsplit.2
    · rintro ⟨⟨h1, h2, h3, h4, h5⟩, h6⟩
      refine ⟨h1, h2, h3, h4, ?_⟩
      refine (ih (pos + c.size) (nextPU c)).mpr ⟨h5, ?_⟩
      have e1 : pos + sumSizes (c :: t) = pos + c.size + sumSizes t := by
        simp [sumSizes]; omega
      rw [e1] at h6
      exact h6

theorem tiled_sizes (m : Mem) :
    ∀ (l : List Chunk) (pos : Nat) (pu : Bool), tiled m pos pu l →
      ∀ c ∈ l, c.size % 16 = 0 ∧ 32 ≤ c.size := by
  intro l
  induction l with
  | nil => intro pos pu _ c hc; simp at hc
  | cons a t ih =>
    intro pos pu h c hc
    rcases List.mem_cons.mp hc with h1 | h2
    · subst h1; exact ⟨h.2.1, h.2.2.1⟩
    · exact ih (pos + a.size) (nextPU a) h.2.2.2.2 c h2

theorem tiled_frame (m m' : Mem) :
    ∀ (l : List Chunk) (pos : Nat) (pu : Bool),
      tiled m pos pu l → (∀ a ∈ hfAddrs pos l, m' a = m a) → tiled m' pos pu l := by
  intro l
  induction l with
  | nil => intro pos pu h _; exact h
  | cons c t ih =>
    intro pos pu h hfr
    obtain ⟨h1, h2, h3, h4, h5⟩ := h
    refine ⟨?_, h2, h3, ?_, ?_⟩
    · rw [hfr pos (by simp [hfAddrs])]; exact h1
    · intro hf
      refine ⟨?_, (h4 hf).2⟩
      rw [hfr (pos + c.size - 8) (by simp [hfAddrs])]
      exact (h4 hf).1
    · exact ih (pos + c.size) (nextPU c) h5
        (fun a ha => hfr a (by simp [hfAddrs, ha]))

theorem hfAddrs_mem :
    ∀ (l : List Chunk) (pos a : Nat), a ∈ hfAddrs pos l →
      ∃ lA c lB, l = lA ++ c :: lB ∧
        (a = pos + sumSizes lA ∨ a = pos + sumSizes lA + c.size - 8) := by
  intro l
  induction l with
  | nil => intro pos a ha; simp [hfAddrs] at ha
  | cons c t ih =>
    intro pos a ha
    simp only [hfAddrs, List.mem_cons] at ha
    rcases ha with h1 | h2 | h3
    · exact ⟨[], c, t, rfl, Or.inl (by simp [sumSizes, h1])⟩
    · exact ⟨[], c, t, rfl, Or.inr (by simp [sumSizes, h2])⟩
    · obtain ⟨lA, d, lB, he, hor⟩ := ih (pos + c.size) a h3
      refine ⟨c :: lA, d, lB, by rw [he]; rfl, ?_⟩
      have e1 : pos + sumSizes (c :: lA) = pos + c.size + sumSizes lA := by
        simp [sumSizes]; omega
      rcases hor with h | h
      · exact Or.inl (by omega)
      · exact Or.inr (by omega)

theorem sumSizes_prefix_lt :
    ∀ (l lA : List Chunk) (c : Chunk) (lB lA' : List Chunk) (c' : Chunk) (lB' : List Chunk),
      l = lA ++ c :: lB → l = lA' ++ c' :: lB' →
      sumSizes lA < sumSizes lA' → sumSizes lA + c.size ≤ sumSizes lA' := by
  intro l
  induction l with
  | nil =>
    intro lA c lB lA' c' lB' h1 _ _
    exact absurd h1 (by simp)
  | cons a t ih =>
    intro lA c lB lA' c' lB' h1 h2 hlt
    cases lA with
    | nil =>
      cases lA' with
      | nil => simp [sumSizes] at hlt
      | cons a' tA' =>
        have hac : a = c := by
          have : a :: t = c :: lB := h1
          injection this with hx _
        have haa' : a = a' := by
          have : a :: t = a' :: (tA' ++ c' :: lB') := h2
          injection this with hx _
        have hsz : c.size = a'.size := by rw [← hac, haa']
        simp only [sumSizes]
        omega
    | cons a0 tA =>
      cases lA' with
      | nil =>
        simp only [sumSizes] at hlt
        omega
      | cons a0' tA' =>
        have he1 : a = a0 ∧ t = tA ++ c :: lB := by
          have : a :: t = a0 :: (tA ++ c :: lB) := h1
          exact ⟨by injection this, by injection this⟩
        have he2 : a = a0' ∧ t = tA' ++ c' :: lB' := by
          have : a :: t = a0' :: (tA' ++ c' :: lB') := h2
          exact ⟨by injection this, by injection this⟩
        have hrec := ih tA c lB tA' c' lB' he1.2 he2.2 (by
          simp only [sumSizes] at hlt
          have := he1.1
          have := he2.1
          subst a0 a0'
          omega)
        simp only [sumSizes]
        have := he1.1
        have := he2.1
        subst a0 a0'
        omega

theorem decomp_eq :
    ∀ (l : List Chunk), (∀ c ∈ l, 0 < c.size) →
    ∀ (lA : List Chunk) (c : Chunk) (lB lA' : List Chunk) (c' : Chunk) (lB' : List Chunk),
      l = lA ++ c :: lB → l = lA' ++ c' :: lB' →
      sumSizes lA = sumSizes lA' → lA = lA' ∧ c = c' ∧ lB = lB' := by
  intro l
  induction l with
  | nil =>
    intro _ lA c lB lA' c' lB' h1 _ _
    exact absurd h1 (by simp)
  | cons a t ih =>
    intro hpos lA c lB lA' c' lB' h1 h2 hsum
    cases lA with
    | nil =>
      cases lA' with
      | nil =>
        have e1 : a :: t = c :: lB := h1
        have e2 : a :: t = c' :: lB' := h2
        refine ⟨rfl, ?_, ?_⟩
        · have hc : a = c := by injection e1
          have hc' : a = c' := by injection e2
          rw [← hc, ← hc']
        · have hb : t = lB := by injection e1
          have hb' : t = lB' := by injection e2
          rw [← hb, ← hb']
      | cons a0' tA' =>
        exfalso
        have e2 : a :: t = a0' :: (tA' ++ c' :: lB') := h2
        have ha : a = a0' := by injection e2
        have hp : 0 < a0'.size := ha ▸ hpos a (by simp)
        simp only [sumSizes] at hsum
        omega
    | cons a0 tA =>
      cases lA' with
      | nil =>
        exfalso
        have e1 : a :: t = a0 :: (tA ++ c :: lB) := h1
        have ha : a = a0 := by injection e1
        have hp : 0 < a0.size := ha ▸ hpos a (by simp)
        simp only [sumSizes] at hsum
        omega
      | cons a0' tA' =>
        have he1 : a = a0 ∧ t = tA ++ c :: lB := by
          have e1 : a :: t = a0 :: (tA ++ c :: lB) := h1
          exact ⟨by injection e1, by injection e1⟩
        have he2 : a = a0' ∧ t = tA' ++ c' :: lB' := by
          have e2 : a :: t = a0' :: (tA' ++ c' :: lB') := h2
          exact ⟨by injection e2, by injection e2⟩
        obtain ⟨ha0, ht1⟩ := he1
        obtain ⟨ha0', ht2⟩ := he2
        subst a0 a0'
        have hrec := ih (fun c hc => hpos c (by simp [hc])) tA c lB tA' c' lB' ht1 ht2
          (by simp only [sumSizes] at hsum; omega)
        exact ⟨by rw [hrec.1], hrec.2.1, hrec.2.2⟩

theorem sumSizes_mod16 :
    ∀ (l : List Chunk), (∀ c ∈ l, c.size % 16 = 0) → sumSizes l % 16 = 0 := by
  intro l
  induction l with
  | nil => intro _; rfl
  | cons c t ih =>
    intro h
    have h1 : c.size % 16 = 0 := h c (by simp)
    have h2 := ih (fun d hd => h d (by simp [hd]))
    simp only [sumSizes]
    omega

theorem length_le_sumSizes :
    ∀ (l : List Chunk), (∀ c ∈ l, 32 ≤ c.size) → 32 * l.length ≤ sumSizes l := by
  intro l
  induction l with
  | nil => intro _; simp [sumSizes]
  | cons c t ih =>
    intro h
    have h1 : 32 ≤ c.size := h c (by simp)
    have h2 := ih (fun d hd => h d (by simp [hd]))
    simp only [sumSizes, List.length_cons]
    omega

theorem tiled_at (m : Mem) (lA : List Chunk) (c : Chunk) (lB : List Chunk)
    (pos : Nat) (pu : Bool) (h : tiled m pos pu (lA ++ c :: lB)) :
    tiled m (pos + sumSizes lA) (endPU pu lA) (c :: lB) :=
  ((tiled_append m lA (c :: lB) pos pu).mp h).2

theorem tiled_read (m : Mem) (pos : Nat) (pu : Bool) (c : Chunk) (t : List Chunk)
    (h : tiled m pos pu (c :: t)) :
    get_chunk_size m pos = c.size ∧
    (chunk_is_free m pos = true ↔ c.st = Status.free) ∧
    get_prev_from_hdr (m pos) = (if pu then 2 else 0) := by
  obtain ⟨h1, h2, _, _, _⟩ := h
  have harith : m pos - m pos % 16 = c.size ∧
      (m pos % 2 = 1 ↔ c.st = Status.free) ∧
      m pos % 4 - m pos % 2 = (if pu then 2 else 0) := by
    by_cases hf : c.st = Status.free <;> cases pu <;>
      simp [hf] at h1 ⊢ <;> omega
  refine ⟨?_, ?_, ?_⟩
  · unfold get_chunk_size get_size_from_hdr
    exact harith.1
  · unfold chunk_is_free get_free_bit_from_hdr
    simp only [decide_eq_true_eq]
    exact harith.2.1
  · unfold get_prev_from_hdr
    exact harith.2.2

end TilingBasics

section DecompLemmas

open MyAlloc

theorem sumSizes_decomp (l lA : List Chunk) (c : Chunk) (lB : List Chunk)
    (h : l = lA ++ c :: lB) :
    sumSizes l = sumSizes lA + c.size + sumSizes lB := by
  subst h
  rw [sumSizes_append]
  simp only [sumSizes]
  omega

theorem IsChunkAt_nil (base h : Nat) (P : Chunk → Prop) :
    ¬ IsChunkAt base [] h P := by
  rintro ⟨lA, c, lB, he, -, -⟩
  exact absurd he (by simp)

theorem IsChunkAt_cons (base : Nat) (c : Chunk) (t : List Chunk) (h : Nat)
    (P : Chunk → Prop) :
    IsChunkAt base (c :: t) h P ↔
      ((h = base + 8 ∧ P c) ∨ IsChunkAt (base + c.size) t h P) := by
  constructor
  · rintro ⟨lA, d, lB, he, hp, hP⟩
    cases lA with
    | nil =>
      left
      have h1 : c = d := by injection he
      have h2 : h = base + 8 := by rw [hp]; simp [sumSizes]
      exact ⟨h2, h1 ▸ hP⟩
    | cons a tA =>
      right
      have h1 : c = a ∧ t = tA ++ d :: lB := by
        have : c :: t = a :: (tA ++ d :: lB) := he
        exact ⟨by injection this, by injection this⟩
      refine ⟨tA, d, lB, h1.2, ?_, hP⟩
      rw [hp, h1.1]
      simp only [sumSizes]
      omega
  · rintro (⟨hh, hP⟩ | ⟨lA, d, lB, he, hp, hP⟩)
    · exact ⟨[], c, t, rfl, by simp [sumSizes, hh], hP⟩
    · refine ⟨c :: lA, d, lB, by rw [he]; rfl, ?_, hP⟩
      rw [hp]
      simp only [sumSizes]
      omega

theorem IsChunkAt_append (base : Nat) (l1 l2 : List Chunk) (h : Nat)
    (P : Chunk → Prop) :
    IsChunkAt base (l1 ++ l2) h P ↔
      (IsChunkAt base l1 h P ∨ IsChunkAt (base + sumSizes l1) l2 h P) := by
  induction l1 generalizing base with
  | nil =>
    simp only [List.nil_append]
    constructor
    · intro hx
      right
      show IsChunkAt (base + sumSizes []) l2 h P
      simpa [sumSizes] using hx
    · rintro (hx | hx)
      · exact absurd hx (IsChunkAt_nil base h P)
      · simpa [sumSizes] using hx
  | cons c t ih =>
    simp only [List.cons_append, IsChunkAt_cons, ih (base + c.size)]
    constructor
    · rintro (hx | hx | hx)
      · exact Or.inl (Or.inl hx)
      · exact Or.inl (Or.inr hx)
      · right
        have e : base + c.size + sumSizes t = base + sumSizes (c :: t) := by
          simp only [sumSizes]; omega
        rw [← e]
        exact hx
    · rintro ((hx | hx) | hx)
      · exact Or.inl hx
      · exact Or.inr (Or.inl hx)
      · right; right
        have e : base + c.size + sumSizes t = base + sumSizes (c :: t) := by
          simp only [sumSizes]; omega
        rw [e]
        exact hx

theorem IsChunkAt_lb (base : Nat) (l : List Chunk) (h : Nat) (P : Chunk → Prop)
    (hx : IsChunkAt base l h P) : base + 8 ≤ h := by
  obtain ⟨lA, c, lB, -, hp, -⟩ := hx
  omega

theorem IsChunkAt_mono (base : Nat) (l : List Chunk) (h : Nat)
    (P Q : Chunk → Prop) (hPQ : ∀ c, P c → Q c)
    (hx : IsChunkAt base l h P) : IsChunkAt base l h Q := by
  obtain ⟨lA, c, lB, he, hp, hP⟩ := hx
  exact ⟨lA, c, lB, he, hp, hPQ c hP⟩

theorem chunks_disjoint (l lA : List Chunk) (c : Chunk) (lB lA' : List Chunk)
    (c' : Chunk) (lB' : List Chunk)
    (h1 : l = lA ++ c :: lB) (h2 : l = lA' ++ c' :: lB')
    (hne : sumSizes lA ≠ sumSizes lA') :
    sumSizes lA + c.size ≤ sumSizes lA' ∨ sumSizes lA' + c'.size ≤ sumSizes lA := by
  rcases Nat.lt_or_ge (sumSizes lA) (sumSizes lA') with hlt | hge
  · exact Or.inl (sumSizes_prefix_lt l lA c lB lA' c' lB' h1 h2 hlt)
  · exact Or.inr (sumSizes_prefix_lt l lA' c' lB' lA c lB h2 h1 (by omega))

theorem addr_sep (l : List Chunk) (hsz : ∀ c ∈ l, 32 ≤ c.size)
    (lQ : List Chunk) (cq : Chunk) (lQ' lH : List Chunk) (ch : Chunk)
    (lH' : List Chunk) (pos a w : Nat)
    (h1 : l = lQ ++ cq :: lQ') (h2 : l = lH ++ ch :: lH')
    (ha : a = pos + sumSizes lQ ∨ a = pos + sumSizes lQ + cq.size - 8)
    (hw : w = pos + sumSizes lH + 8 ∨ w = pos + sumSizes lH + 16) :
    a ≠ w := by
  have hq32 : 32 ≤ cq.size := hsz cq (by rw [h1]; simp)
  have hh32 : 32 ≤ ch.size := hsz ch (by rw [h2]; simp)
  by_cases hs : sumSizes lQ = sumSizes lH
  · have := decomp_eq l (fun c hc => by have := hsz c hc; omega)
      lQ cq lQ' lH ch lH' h1 h2 hs
    have hcc : cq = ch := this.2.1
    rcases ha with ha | ha <;> rcases hw with hw | hw <;> omega
  · have := chunks_disjoint l lQ cq lQ' lH ch lH' h1 h2 hs
    rcases this with hd | hd <;> rcases ha with ha | ha <;>
      rcases hw with hw | hw <;> omega

end DecompLemmas

section GInvFacts

open MyAlloc

theorem ginv_sizes {base endp : Nat} {s : S} {live : List Nat} {g : Ghost}
    (hg : GInv base endp s live g) :
    ∀ c ∈ g.layout, c.size % 16 = 0 ∧ 32 ≤ c.size :=
  tiled_sizes s.mem g.layout (base + 8) true hg.tiling

theorem ginv_pos_mod {base endp : Nat} {s : S} {live : List Nat} {g : Ghost}
    (hg : GInv base endp s live g) (hb16 : base % 16 = 0)
    (lA : List Chunk) (c : Chunk) (lB : List Chunk)
    (he : g.layout = lA ++ c :: lB) :
    (base + 8 + sumSizes lA) % 16 = 8 := by
  have hs : sumSizes lA % 16 = 0 := by
    refine sumSizes_mod16 lA (fun d hd => ?_)
    exact (ginv_sizes hg d (by rw [he]; exact List.mem_append_left _ hd)).1
  omega

theorem ginv_read {base endp : Nat} {s : S} {live : List Nat} {g : Ghost}
    (hg : GInv base endp s live g)
    (lA : List Chunk) (c : Chunk) (lB : List Chunk)
    (he : g.layout = lA ++ c :: lB) :
    get_chunk_size s.mem (base + 8 + sumSizes lA) = c.size ∧
    (chunk_is_free s.mem (base + 8 + sumSizes lA) = true ↔ c.st = Status.free) ∧
    get_prev_from_hdr (s.mem (base + 8 + sumSizes lA)) =
      (if endPU true lA then 2 else 0) := by
  have ht := hg.tiling
  rw [he] at ht
  exact tiled_read s.mem (base + 8 + sumSizes lA) (endPU true lA) c lB
    (tiled_at s.mem lA c lB (base + 8) true ht)

theorem ginv_fl_free {base endp : Nat} {s : S} {live : List Nat} {g : Ghost}
    (hg : GInv base endp s live g) :
    ∀ h ∈ g.fl, chunk_is_free s.mem h = true := by
  intro h hh
  obtain ⟨lA, c, lB, he, hp, hf⟩ := (hg.flMem h).mp hh
  rw [hp]
  exact (ginv_read hg lA c lB he).2.1.mpr hf

theorem ginv_fl_nz {base endp : Nat} {s : S} {live : List Nat} {g : Ghost}
    (hg : GInv base endp s live g) :
    ∀ h ∈ g.fl, 0 < h := by
  intro h hh
  have := IsChunkAt_lb base g.layout h _ ((hg.flMem h).mp hh)
  omega

theorem ginv_layout_ne_nil {base endp : Nat} {s : S} {live : List Nat} {g : Ghost}
    (hg : GInv base endp s live g)
    (lA : List Chunk) (c : Chunk) (lB : List Chunk)
    (he : g.layout = lA ++ c :: lB) :
    s.arena.bump = base + 8 + sumSizes g.layout := by
  rcases hg.bumpEq with ⟨-, hnil⟩ | hb
  · rw [hnil] at he
    exact absurd he (by simp)
  · exact hb

theorem ginv_fl_bump {base endp : Nat} {s : S} {live : List Nat} {g : Ghost}
    (hg : GInv base endp s live g) :
    ∀ h ∈ g.fl, h + get_chunk_size s.mem h ≤ s.arena.bump := by
  intro h hh
  obtain ⟨lA, c, lB, he, hp, hf⟩ := (hg.flMem h).mp hh
  have hr := (ginv_read hg lA c lB he).1
  rw [hp, hr]
  rw [ginv_layout_ne_nil hg lA c lB he, sumSizes_decomp g.layout lA c lB he]
  omega

theorem ginv_fl_pw {base endp : Nat} {s : S} {live : List Nat} {g : Ghost}
    (hg : GInv base endp s live g) :
    g.fl.Pairwise NodeSep := by
  refine hg.flNodup.imp_of_mem ?_
  intro a b ha hb hne
  obtain ⟨lA, c, lB, he, hp, -⟩ := (hg.flMem a).mp ha
  obtain ⟨lA', c', lB', he', hp', -⟩ := (hg.flMem b).mp hb
  have h32 : 32 ≤ c.size := (ginv_sizes hg c (by rw [he]; simp)).2
  have h32' : 32 ≤ c'.size := (ginv_sizes hg c' (by rw [he']; simp)).2
  have hsne : sumSizes lA ≠ sumSizes lA' := fun hs => hne (by omega)
  have := chunks_disjoint g.layout lA c lB lA' c' lB' he he' hsne
  unfold NodeSep
  omega

theorem ginv_fl_len {base endp : Nat} {s : S} {live : List Nat} {g : Ghost}
    (hg : GInv base endp s live g) :
    g.fl.length ≤ endp + 1 := by
  have hsub : ∀ h ∈ g.fl, h < endp + 1 := by
    intro h hh
    have h1 := ginv_fl_bump hg h hh
    have h2 := hg.bumpLe
    omega
  calc g.fl.length = g.fl.toFinset.card := (List.toFinset_card_of_nodup hg.flNodup).symm
    _ ≤ (Finset.range (endp + 1)).card := by
        refine Finset.card_le_card ?_
        intro x hx
        rw [List.mem_toFinset] at hx
        rw [Finset.mem_range]
        exact hsub x hx
    _ = endp + 1 := Finset.card_range _

theorem free_not_adjacent (m : Mem) (l : List Chunk) (pos : Nat) (pu : Bool)
    (ht : tiled m pos pu l)
    (lA : List Chunk) (c : Chunk) (lB : List Chunk) (he : l = lA ++ c :: lB)
    (hcf : c.st = Status.free)
    (lH : List Chunk) (ch : Chunk) (lH' : List Chunk) (he' : l = lH ++ ch :: lH')
    (hchf : ch.st = Status.free)
    (hsum : sumSizes lH = sumSizes lA + c.size) : False := by
  have hpos : ∀ d ∈ l, 0 < d.size := by
    intro d hd
    have := tiled_sizes m l pos pu ht d hd
    omega
  cases lB with
  | nil =>
    have h1 := sumSizes_decomp l lA c [] he
    have h2 := sumSizes_decomp l lH ch lH' he'
    have h3 : 0 < ch.size := hpos ch (by rw [he']; simp)
    simp [sumSizes] at h1
    omega
  | cons d rest =>
    have he2 : l = (lA ++ [c]) ++ d :: rest := by rw [he]; simp
    have hsum2 : sumSizes (lA ++ [c]) = sumSizes lH := by
      rw [sumSizes_append]
      simp [sumSizes]
      omega
    have hde := decomp_eq l hpos (lA ++ [c]) d rest lH ch lH' he2 he' hsum2
    have hdc : d = ch := hde.2.1
    rw [he] at ht
    have ht2 := tiled_at m lA c (d :: rest) pos pu ht
    obtain ⟨-, -, -, -, ht3⟩ := ht2
    obtain ⟨-, -, -, hfree, -⟩ := ht3
    have : nextPU c = true := (hfree (hdc ▸ hchf)).2
    unfold nextPU at this
    rw [hcf] at this
    simp at this

theorem ginv_fl_sep {base endp : Nat} {s : S} {live : List Nat} {g : Ghost}
    (hg : GInv base endp s live g) (hb16 : base % 16 = 0) :
    ∀ fc ∈ g.fl, ∀ h ∈ g.fl, h ≠ fc →
      h + 24 ≤ fc ∨ fc + get_chunk_size s.mem fc + 8 ≤ h := by
  intro fc hfc h hh hne
  obtain ⟨lA, c, lB, he, hp, hcf⟩ := (hg.flMem fc).mp hfc
  obtain ⟨lH, ch, lH', he', hp', hchf⟩ := (hg.flMem h).mp hh
  have hr := (ginv_read hg lA c lB he).1
  have h32 : 32 ≤ c.size := (ginv_sizes hg c (by rw [he]; simp)).2
  have h16c : c.size % 16 = 0 := (ginv_sizes hg c (by rw [he]; simp)).1
  have h32' : 32 ≤ ch.size := (ginv_sizes hg ch (by rw [he']; simp)).2
  have hmod : (base + 8 + sumSizes lA) % 16 = 8 := ginv_pos_mod hg hb16 lA c lB he
  have hmod' : (base + 8 + sumSizes lH) % 16 = 8 := ginv_pos_mod hg hb16 lH ch lH' he'
  have hcsz : get_chunk_size s.mem fc = c.size := by rw [hp]; exact hr
  rw [hcsz]
  have hsne : sumSizes lA ≠ sumSizes lH := fun hs => hne (by omega)
  rcases chunks_disjoint g.layout lA c lB lH ch lH' he he' hsne with hd | hd
  · by_cases hadj : sumSizes lH = sumSizes lA + c.size
    · exact (free_not_adjacent s.mem g.layout (base + 8) true hg.tiling
        lA c lB he hcf lH ch lH' he' hchf hadj).elim
    · right; omega
  · left; omega

end GInvFacts

section GhostSurgery

open MyAlloc

theorem nextPU_true {c : Chunk} (h : c.st ≠ Status.free) : nextPU c = true := by
  unfold nextPU
  cases hst : c.st with
  | free => exact absurd hst h
  | live => rfl
  | tc => rfl

theorem nextPU_false {c : Chunk} (h : c.st = Status.free) : nextPU c = false := by
  unfold nextPU
  rw [h]

theorem tiled_replace (m : Mem) (pos : Nat) (pu : Bool) (lA : List Chunk)
    (c c' : Chunk) (lB : List Chunk)
    (ht : tiled m pos pu (lA ++ c :: lB))
    (hc : c.st ≠ Status.free) (hc' : c'.st ≠ Status.free)
    (hsz : c'.size = c.size) :
    tiled m pos pu (lA ++ c' :: lB) := by
  obtain ⟨h1, h2⟩ := (tiled_append m lA (c :: lB) pos pu).mp ht
  obtain ⟨hh, hs16, hs32, -, hrest⟩ := h2
  refine (tiled_append m lA (c' :: lB) pos pu).mpr ⟨h1, ?_, hsz ▸ hs16, hsz ▸ hs32,
    fun hf => absurd hf hc', ?_⟩
  · rw [hsz, if_neg hc']
    rw [if_neg hc] at hh
    exact hh
  · rw [hsz, nextPU_true hc']
    rw [nextPU_true hc] at hrest
    exact hrest

theorem IsChunkAt_middle (base : Nat) (lA : List Chunk) (c : Chunk)
    (lB : List Chunk) (h : Nat) (P : Chunk → Prop) :
    IsChunkAt base (lA ++ c :: lB) h P ↔
      (IsChunkAt base lA h P ∨ (h = base + 8 + sumSizes lA ∧ P c) ∨
       IsChunkAt (base + sumSizes lA + c.size) lB h P) := by
  rw [IsChunkAt_append, IsChunkAt_cons]
  constructor
  · rintro (hx | ⟨hh, hP⟩ | hx)
    · exact Or.inl hx
    · exact Or.inr (Or.inl ⟨by omega, hP⟩)
    · exact Or.inr (Or.inr hx)
  · rintro (hx | ⟨hh, hP⟩ | hx)
    · exact Or.inl hx
    · exact Or.inr (Or.inl ⟨by omega, hP⟩)
    · exact Or.inr (Or.inr hx)

theorem IsChunkAt_ub (base : Nat) (l : List Chunk) (h : Nat) (P : Chunk → Prop)
    (hpos : ∀ c ∈ l, 0 < c.size)
    (hx : IsChunkAt base l h P) : h < base + 8 + sumSizes l := by
  obtain ⟨lA, c, lB, he, hp, -⟩ := hx
  have hs := sumSizes_decomp l lA c lB he
  have hc : 0 < c.size := hpos c (by rw [he]; simp)
  omega

theorem IsChunkAt_unique (base : Nat) (l : List Chunk) (h : Nat)
    (P Q : Chunk → Prop) (hpos : ∀ c ∈ l, 0 < c.size)
    (h1 : IsChunkAt base l h P) (h2 : IsChunkAt base l h Q) :
    ∃ lA c lB, l = lA ++ c :: lB ∧ h = base + 8 + sumSizes lA ∧ P c ∧ Q c := by
  obtain ⟨lA, c, lB, he, hp, hP⟩ := h1
  obtain ⟨lA', c', lB', he', hp', hQ⟩ := h2
  have hsum : sumSizes lA = sumSizes lA' := by omega
  obtain ⟨hA, hc, hB⟩ := decomp_eq l hpos lA c lB lA' c' lB' he he' hsum
  exact ⟨lA, c, lB, he, hp, hP, hc ▸ hQ⟩

theorem ginv_locks {base endp : Nat} {s : S} {live : List Nat} {g : Ghost}
    (hg : GInv base endp s live g) (k : Nat) :
    GInv base endp { s with locks := k } live g :=
  ⟨hg.baseEq, hg.endpEq, hg.tiling, hg.bumpEq, hg.bumpLe, hg.lastPU, hg.flRep,
   hg.flNodup, hg.flMem, hg.tcRep, hg.tcCount, hg.tcNodup, hg.tcMem,
   hg.liveRep, hg.liveNodup⟩

end GhostSurgery

section PopPreservation

open MyAlloc

theorem needOf_facts (n : Nat) (hn : 0 < n) :
    needOf n % 16 = 0 ∧ 32 ≤ needOf n ∧ n + 8 ≤ needOf n := by
  unfold needOf align16 WORD
  omega

theorem bin_arith (need : Nat) (h16 : need % 16 = 0) (h32 : 32 ≤ need) :
    ((0 : Int) ≤ size_to_tcache_bin (need - WORD) ↔ need ≤ 1040) ∧
    (need ≤ 1040 → (size_to_tcache_bin (need - WORD)).toNat < 64 ∧
      16 * ((size_to_tcache_bin (need - WORD)).toNat + 2) = need) := by
  unfold size_to_tcache_bin WORD
  dsimp only
  have hidx : (need - 8) / 16 = need / 16 - 1 := by omega
  rw [if_neg (by omega : ¬ (need - 8) / 16 = 0)]
  by_cases hgt : 64 < (need - 8) / 16
  · rw [if_pos hgt]
    constructor
    · constructor
      · intro h; omega
      · intro h; omega
    · intro h; omega
  · rw [if_neg hgt]
    constructor
    · constructor
      · intro h; omega
      · intro h; omega
    · intro h
      constructor
      · omega
      · omega

theorem ginv_tcache_pop {base endp : Nat} {s : S} {live : List Nat} {g : Ghost}
    (hg : GInv base endp s live g) (b : Nat) (hb : b < 64)
    (hhead : (s.tcache b).head ≠ 0) :
    ∃ g', GInv base endp
      { s with tcache := fun i => if i = b then
          { head := s.mem ((s.tcache b).head + 8), count := (s.tcache b).count - 1 }
        else s.tcache i }
      (((s.tcache b).head + 8) :: live) g' := by
  have hch := hg.tcRep b hb
  cases htl : g.tl b with
  | nil => rw [htl] at hch; exact absurd hch hhead
  | cons h0 rest =>
  rw [htl] at hch
  obtain ⟨hh0, hchain⟩ := hch
  have hmem0 : h0 ∈ g.tl b := by rw [htl]; simp
  obtain ⟨lA, c, lB, he, hp, hPc⟩ := (hg.tcMem b hb h0).mp hmem0
  obtain ⟨hc_tc, hc_sz⟩ := hPc
  have hpos : ∀ d ∈ g.layout, 0 < d.size := by
    intro d hd
    have := ginv_sizes hg d hd
    omega
  have hposA : ∀ d ∈ lA, 0 < d.size := by
    intro d hd
    exact hpos d (by rw [he]; exact List.mem_append_left _ hd)
  have hcsz0 : 0 < c.size := hpos c (by rw [he]; simp)
  refine ⟨⟨lA ++ ⟨c.size, Status.live⟩ :: lB, g.fl,
    fun i => if i = b then rest else g.tl i⟩, ?_⟩
  have hsum : sumSizes (lA ++ (⟨c.size, Status.live⟩ : Chunk) :: lB) =
      sumSizes g.layout := by
    rw [sumSizes_decomp _ lA ⟨c.size, Status.live⟩ lB rfl,
      sumSizes_decomp g.layout lA c lB he]
  have hcne : c.st ≠ Status.free := by rw [hc_tc]; simp
  have hiff : ∀ (P : Chunk → Prop), ¬ P c → ¬ P ⟨c.size, Status.live⟩ → ∀ h,
      (IsChunkAt base g.layout h P ↔
       IsChunkAt base (lA ++ ⟨c.size, Status.live⟩ :: lB) h P) := by
    intro P hPc hPc' h
    rw [he, IsChunkAt_middle, IsChunkAt_middle]
    constructor
    · rintro (hx | ⟨-, hP⟩ | hx)
      · exact Or.inl hx
      · exact absurd hP hPc
      · exact Or.inr (Or.inr hx)
    · rintro (hx | ⟨-, hP⟩ | hx)
      · exact Or.inl hx
      · exact absurd hP hPc'
      · exact Or.inr (Or.inr hx)
  constructor
  · exact hg.baseEq
  · exact hg.endpEq
  · show tiled s.mem (base + 8) true (lA ++ ⟨c.size, Status.live⟩ :: lB)
    exact tiled_replace s.mem (base + 8) true lA c ⟨c.size, Status.live⟩ lB
      (he ▸ hg.tiling) hcne (by simp) rfl
  · rcases hg.bumpEq with ⟨-, hnil⟩ | hbe
    · rw [hnil] at he
      exact absurd he (by simp)
    · right
      show s.arena.bump = base + 8 + sumSizes (lA ++ ⟨c.size, Status.live⟩ :: lB)
      rw [hsum]
      exact hbe
  · exact hg.bumpLe
  · show endPU true (lA ++ ⟨c.size, Status.live⟩ :: lB) = true
    rw [endPU_append]
    show endPU (nextPU ⟨c.size, Status.live⟩) lB = true
    rw [nextPU_true (by simp)]
    have hlast := hg.lastPU
    rw [he, endPU_append] at hlast
    have hlast2 : endPU (nextPU c) lB = true := hlast
    rw [nextPU_true hcne] at hlast2
    exact hlast2
  · exact hg.flRep
  · exact hg.flNodup
  · intro h
    exact (hg.flMem h).trans
      (hiff _ (by rw [hc_tc]; simp) (by simp) h)
  · intro b' hb'
    by_cases hbb : b' = b
    · subst hbb
      show tcChain s.mem ((if b' = b' then
        ({ head := s.mem ((s.tcache b').head + 8),
           count := (s.tcache b').count - 1 } : TcacheBin)
        else s.tcache b').head) (if b' = b' then rest else g.tl b')
      rw [if_pos rfl, if_pos rfl]
      rw [hh0]
      exact hchain
    · show tcChain s.mem ((if b' = b then _ else s.tcache b').head)
        (if b' = b then rest else g.tl b')
      rw [if_neg hbb, if_neg hbb]
      exact hg.tcRep b' hb'
  · intro b' hb'
    by_cases hbb : b' = b
    · subst hbb
      show (if b' = b' then
        ({ head := s.mem ((s.tcache b').head + 8),
           count := (s.tcache b').count - 1 } : TcacheBin)
        else s.tcache b').count = ((if b' = b' then rest else g.tl b').length : Int)
      rw [if_pos rfl, if_pos rfl]
      have hcnt := hg.tcCount b' hb'
      rw [htl] at hcnt
      simp only [List.length_cons] at hcnt
      dsimp only
      omega
    · show (if b' = b then _ else s.tcache b').count =
        ((if b' = b then rest else g.tl b').length : Int)
      rw [if_neg hbb, if_neg hbb]
      exact hg.tcCount b' hb'
  · intro b' hb'
    by_cases hbb : b' = b
    · subst hbb
      show (if b' = b' then rest else g.tl b').Nodup
      rw [if_pos rfl]
      have := hg.tcNodup b' hb'
      rw [htl] at this
      exact this.of_cons
    · show (if b' = b then rest else g.tl b').Nodup
      rw [if_neg hbb]
      exact hg.tcNodup b' hb'
  · intro b' hb' h
    by_cases hbb : b' = b
    · subst hbb
      show h ∈ (if b' = b' then rest else g.tl b') ↔ _
      rw [if_pos rfl]
      have hold := hg.tcMem b' hb' h
      rw [htl] at hold
      have hnd := hg.tcNodup b' hb'
      rw [htl] at hnd
      have hh0nr : h0 ∉ rest := (List.nodup_cons.mp hnd).1
      constructor
      · intro hr
        have hx := hold.mp (by simp [hr])
        rw [he, IsChunkAt_middle] at hx
        rcases hx with hx | ⟨hhp, -⟩ | hx
        · exact (IsChunkAt_middle base lA ⟨c.size, Status.live⟩ lB h _).mpr
            (Or.inl hx)
        · exact absurd (show h = h0 by omega) (fun he2 => hh0nr (he2 ▸ hr))
        · exact (IsChunkAt_middle base lA ⟨c.size, Status.live⟩ lB h _).mpr
            (Or.inr (Or.inr hx))
      · intro hx
        rw [IsChunkAt_middle] at hx
        rcases hx with hx | ⟨-, hP⟩ | hx
        · have hhlt : h < base + 8 + sumSizes lA :=
            IsChunkAt_ub base lA h _ hposA hx
          have hin := hold.mpr (by
            rw [he, IsChunkAt_middle]
            exact Or.inl hx)
          rcases List.mem_cons.mp hin with he2 | hr
          · omega
          · exact hr
        · exact absurd hP.1 (by simp)
        · have hhge : base + sumSizes lA + c.size + 8 ≤ h :=
            IsChunkAt_lb _ lB h _ hx
          have hin := hold.mpr (by
            rw [he, IsChunkAt_middle]
            exact Or.inr (Or.inr hx))
          rcases List.mem_cons.mp hin with he2 | hr
          · omega
          · exact hr
    · show h ∈ (if b' = b then rest else g.tl b') ↔ _
      rw [if_neg hbb]
      refine (hg.tcMem b' hb' h).trans (hiff _ ?_ ?_ h)
      · rintro ⟨-, hsz⟩
        have : (16 : Nat) * (b' + 2) = 16 * (b + 2) := by rw [← hsz, hc_sz]
        exact hbb (by omega)
      · rintro ⟨hst, -⟩
        simp at hst
  · intro p
    rw [hh0]
    constructor
    · intro hm
      rcases List.mem_cons.mp hm with hpe | hin
      · subst hpe
        refine ⟨by omega, ?_⟩
        rw [IsChunkAt_middle]
        exact Or.inr (Or.inl ⟨by omega, rfl⟩)
      · obtain ⟨h8, hx⟩ := (hg.liveRep p).mp hin
        refine ⟨h8, ?_⟩
        rw [he, IsChunkAt_middle] at hx
        rcases hx with hx | ⟨-, hP⟩ | hx
        · exact (IsChunkAt_middle base lA ⟨c.size, Status.live⟩ lB (p - 8) _).mpr
            (Or.inl hx)
        · rw [hc_tc] at hP
          exact absurd hP (by simp)
        · exact (IsChunkAt_middle base lA ⟨c.size, Status.live⟩ lB (p - 8) _).mpr
            (Or.inr (Or.inr hx))
    · rintro ⟨h8, hx⟩
      rw [IsChunkAt_middle] at hx
      rcases hx with hx | ⟨hhp, -⟩ | hx
      · refine List.mem_cons_of_mem _ ((hg.liveRep p).mpr ⟨h8, ?_⟩)
        rw [he, IsChunkAt_middle]
        exact Or.inl hx
      · have hpe : p = h0 + 8 := by omega
        rw [hpe]
        exact List.mem_cons_self _ _
      · refine List.mem_cons_of_mem _ ((hg.liveRep p).mpr ⟨h8, ?_⟩)
        rw [he, IsChunkAt_middle]
        exact Or.inr (Or.inr hx)
  · refine List.nodup_cons.mpr ⟨?_, hg.liveNodup⟩
    rw [hh0]
    intro hin
    obtain ⟨-, hx⟩ := (hg.liveRep (h0 + 8)).mp hin
    have hx2 : IsChunkAt base g.layout (h0 + 8 - 8) (fun d => d.st = Status.tc) := by
      refine ⟨lA, c, lB, he, by omega, hc_tc⟩
    obtain ⟨-, d, -, -, -, hd1, hd2⟩ :=
      IsChunkAt_unique base g.layout (h0 + 8 - 8) _ _ hpos hx hx2
    rw [hd1] at hd2
    exact absurd hd2 (by simp)

end PopPreservation

section CarvePreservation

open MyAlloc

theorem tcChain_frame (m m' : Mem) :
    ∀ (l : List Nat) (p : Nat), tcChain m p l →
      (∀ h ∈ l, m' (h + 8) = m (h + 8)) → tcChain m' p l := by
  intro l
  induction l with
  | nil => intro p hc _; exact hc
  | cons h t ih =>
    intro p hc hfr
    obtain ⟨hp, ht⟩ := hc
    refine ⟨hp, ?_⟩
    rw [hfr h (by simp)]
    exact ih (m (h + 8)) ht (fun x hx => hfr x (by simp [hx]))

theorem hfAddrs_lt :
    ∀ (l : List Chunk) (pos : Nat), (∀ c ∈ l, 8 ≤ c.size) →
      ∀ a ∈ hfAddrs pos l, a < pos + sumSizes l := by
  intro l pos hsz a ha
  obtain ⟨lA, c, lB, he, hor⟩ := hfAddrs_mem l pos a ha
  have hd := sumSizes_decomp l lA c lB he
  have hc8 : 8 ≤ c.size := hsz c (by rw [he]; simp)
  rcases hor with h | h <;> omega

theorem ginv_carve {base endp : Nat} {s : S} {live : List Nat} {g : Ghost}
    (hg : GInv base endp s live g) (hb16 : base % 16 = 0)
    (need : Nat) (h16 : need % 16 = 0) (h32 : 32 ≤ need)
    (hdr : Nat) (s' : S) (hcv : carve_from_top s need = some (hdr, s')) :
    hdr = base + 8 + sumSizes g.layout ∧
    get_chunk_size s'.mem hdr = need ∧
    ∃ g', GInv base endp s' ((hdr + 8) :: live) g' := by
  have hhdr : align16 (s.arena.bump + WORD) - WORD = base + 8 + sumSizes g.layout := by
    rcases hg.bumpEq with ⟨hbb, hnil⟩ | hbe
    · rw [hbb, hnil]
      unfold align16 WORD
      simp only [sumSizes]
      omega
    · have hs16 : sumSizes g.layout % 16 = 0 :=
        sumSizes_mod16 _ (fun c hc => (ginv_sizes hg c hc).1)
      rw [hbe]
      unfold align16 WORD
      omega
  unfold carve_from_top at hcv
  dsimp only at hcv
  rw [hhdr] at hcv
  by_cases hcond : s.arena.endp - (base + 8 + sumSizes g.layout) < need
  · rw [if_pos hcond] at hcv
    exact absurd hcv (by simp)
  rw [if_neg hcond] at hcv
  simp only [Option.some.injEq, Prod.mk.injEq] at hcv
  obtain ⟨hh, hs'⟩ := hcv
  have hend : s.arena.endp = endp := hg.endpEq
  have hroom : base + 8 + sumSizes g.layout + need ≤ endp := by omega
  subst hh
  -- memory evaluation
  set pos := base + 8 + sumSizes g.layout with hpos_def
  have hm2 : ∀ x, x ≠ pos →
      (set_prev_bit_in_hdr (set_hdr_keep_prev s.mem pos need false) pos true) x =
      s.mem x := by
    intro x hx
    unfold set_prev_bit_in_hdr set_hdr_keep_prev
    rw [upd_ne _ _ _ _ hx, upd_ne _ _ _ _ hx]
  have hm2h : (set_prev_bit_in_hdr (set_hdr_keep_prev s.mem pos need false) pos true)
      pos = need + 2 := by
    unfold set_prev_bit_in_hdr set_hdr_keep_prev
    rw [upd_same]
    rw [show upd s.mem pos (set_hdr_keep_prev_val (s.mem pos) need false) pos =
      set_hdr_keep_prev_val (s.mem pos) need false from upd_same _ _ _]
    rw [carve_header_val]
    omega
  have hszs : ∀ c ∈ g.layout, 8 ≤ c.size := by
    intro c hc
    have := ginv_sizes hg c hc
    omega
  have hfrm : ∀ a ∈ hfAddrs (base + 8) g.layout,
      (set_prev_bit_in_hdr (set_hdr_keep_prev s.mem pos need false) pos true) a =
      s.mem a := by
    intro a ha
    refine hm2 a ?_
    have := hfAddrs_lt g.layout (base + 8) hszs a ha
    omega
  have hlink : ∀ P h, IsChunkAt base g.layout h P →
      (∀ y, y < h + 32 →
        (set_prev_bit_in_hdr (set_hdr_keep_prev s.mem pos need false) pos true) y =
        s.mem y) := by
    intro P h hx y hy
    obtain ⟨lA, c, lB, he, hp, -⟩ := hx
    have hd := sumSizes_decomp g.layout lA c lB he
    have h32c : 32 ≤ c.size := (ginv_sizes hg c (by rw [he]; simp)).2
    refine hm2 y ?_
    omega
  have hmem_structs : s'.mem =
      (set_prev_bit_in_hdr (set_hdr_keep_prev s.mem pos need false) pos true) ∧
      s'.arena.base = s.arena.base ∧ s'.arena.endp = s.arena.endp ∧
      s'.arena.bump = pos + need ∧ s'.arena.free_list = s.arena.free_list ∧
      s'.tcache = s.tcache := by
    rw [← hs']
    exact ⟨rfl, rfl, rfl, rfl, rfl, rfl⟩
  obtain ⟨hsm, hsb, hse, hsbump, hsfl, hstc⟩ := hmem_structs
  refine ⟨rfl, ?_, ⟨g.layout ++ [⟨need, Status.live⟩], g.fl, g.tl⟩, ?_⟩
  · rw [hsm]
    unfold get_chunk_size get_size_from_hdr
    rw [hm2h]
    omega
  have hsum2 : sumSizes (g.layout ++ [(⟨need, Status.live⟩ : Chunk)]) =
      sumSizes g.layout + need := by
    rw [sumSizes_append]
    simp [sumSizes]
  constructor
  · rw [hsb]; exact hg.baseEq
  · rw [hse]; exact hg.endpEq
  · rw [hsm]
    refine (tiled_append _ g.layout [⟨need, Status.live⟩] (base + 8) true).mpr
      ⟨tiled_frame s.mem _ g.layout (base + 8) true hg.tiling hfrm, ?_⟩
    refine ⟨?_, h16, h32, fun hf => absurd hf (by simp), trivial⟩
    have hpu : endPU true g.layout = true := hg.lastPU
    rw [hpu, if_pos rfl, if_neg (by simp), hm2h]
  · right
    rw [hsbump, hsum2]
    omega
  · rw [hsbump]
    omega
  · rw [endPU_append]
    rfl
  · rw [hsm, hsfl]
    refine flChain_frame s.mem _ g.fl 0 s.arena.free_list hg.flRep ?_
    intro h hh
    have hx := (hg.flMem h).mp hh
    exact ⟨hlink _ h hx (h + 8) (by omega), hlink _ h hx (h + 16) (by omega)⟩
  · exact hg.flNodup
  · intro h
    rw [(hg.flMem h), IsChunkAt_append, IsChunkAt_cons]
    constructor
    · intro hx; exact Or.inl hx
    · rintro (hx | ⟨-, hP⟩ | hx)
      · exact hx
      · exact absurd hP (by simp)
      · exact absurd hx (IsChunkAt_nil _ _ _)
  · intro b hb
    rw [hsm, hstc]
    refine tcChain_frame s.mem _ (g.tl b) _ (hg.tcRep b hb) ?_
    intro h hh
    exact hlink _ h (IsChunkAt_mono _ _ _ _ _ (fun c hc => hc)
      ((hg.tcMem b hb h).mp hh)) (h + 8) (by omega)
  · intro b hb
    rw [hstc]
    exact hg.tcCount b hb
  · exact hg.tcNodup
  · intro b hb h
    rw [(hg.tcMem b hb h), IsChunkAt_append, IsChunkAt_cons]
    constructor
    · intro hx; exact Or.inl hx
    · rintro (hx | ⟨-, hP⟩ | hx)
      · exact hx
      · exact absurd hP.1 (by simp)
      · exact absurd hx (IsChunkAt_nil _ _ _)
  · intro p
    rw [List.mem_cons, IsChunkAt_append, IsChunkAt_cons]
    constructor
    · rintro (hpe | hin)
      · subst hpe
        exact ⟨by omega, Or.inr (Or.inl ⟨by omega, rfl⟩)⟩
      · obtain ⟨h8, hx⟩ := (hg.liveRep p).mp hin
        exact ⟨h8, Or.inl hx⟩
    · rintro ⟨h8, hx | ⟨hh, -⟩ | hx⟩
      · exact Or.inr ((hg.liveRep p).mpr ⟨h8, hx⟩)
      · left; omega
      · exact absurd hx (IsChunkAt_nil _ _ _)
  · refine List.nodup_cons.mpr ⟨?_, hg.liveNodup⟩
    intro hin
    obtain ⟨-, hx⟩ := (hg.liveRep (pos + 8)).mp hin
    have hpos2 : ∀ d ∈ g.layout, 0 < d.size := by
      intro d hd
      have := ginv_sizes hg d hd
      omega
    have := IsChunkAt_ub base g.layout (pos + 8 - 8) _ hpos2 hx
    omega

end CarvePreservation

section SplitFrames

open MyAlloc

theorem split_free_chunk_split_raw (s : S) (fc need : Nat) (l1 l2 : List Nat)
    (hc : flChain s.mem 0 s.arena.free_list (l1 ++ fc :: l2))
    (hpw : (l1 ++ fc :: l2).Pairwise NodeSep)
    (hsep : ∀ h ∈ l1 ++ fc :: l2, h ≠ fc →
      h + 24 ≤ fc ∨ fc + get_chunk_size s.mem fc + 8 ≤ h)
    (h16 : need % 16 = 0) (hneed : 32 ≤ need)
    (hcase : need + get_free_chunk_min_size ≤ get_chunk_size s.mem fc)
    (hbump : fc + get_chunk_size s.mem fc ≤ s.arena.bump) :
    (split_free_chunk s fc need).2.mem fc =
      set_hdr_keep_prev_val (s.mem fc) need false ∧
    (split_free_chunk s fc need).2.mem (fc + need) =
      (get_chunk_size s.mem fc - need) + 3 := by
  have hcsz16 : get_chunk_size s.mem fc % 16 = 0 := by
    unfold get_chunk_size get_size_from_hdr; omega
  have h48 : get_free_chunk_min_size = 48 := rfl
  rw [h48] at hcase
  have hfdid : s.mem (fc + 8) = l2.headD 0 :=
    flChain_fc_fd s.mem fc l2 l1 0 s.arena.free_list hc
  have hbkid : s.mem (fc + 16) = l1.getLastD 0 :=
    flChain_fc_bk s.mem fc l2 l1 0 s.arena.free_list hc
  have hfcnm := fc_not_mem_rest hpw
  have hfdsep : s.mem (fc + 8) = 0 ∨
      (s.mem (fc + 8) + 24 ≤ fc ∨ fc + get_chunk_size s.mem fc + 8 ≤ s.mem (fc + 8)) := by
    cases l2 with
    | nil => left; rw [hfdid]; rfl
    | cons h2 t2 =>
      right
      have hm : s.mem (fc + 8) = h2 := by rw [hfdid]; rfl
      rw [hm]
      exact hsep h2 (by simp) (fun he => hfcnm.2 (he ▸ (by simp : h2 ∈ h2 :: t2)))
  have hbksep : s.mem (fc + 16) = 0 ∨
      (s.mem (fc + 16) + 24 ≤ fc ∨ fc + get_chunk_size s.mem fc + 8 ≤ s.mem (fc + 16)) := by
    cases l1 with
    | nil => left; rw [hbkid]; rfl
    | cons b l1' =>
      right
      have hm : s.mem (fc + 16) ∈ b :: l1' := by
        rw [hbkid, List.getLastD_cons]
        exact List.getLastD_mem_cons l1' b
      refine hsep (s.mem (fc + 16)) (List.mem_append_left _ hm) ?_
      intro he
      exact hfcnm.1 (he ▸ hm)
  have hheadsep : s.arena.free_list = fc ∨ s.arena.free_list = 0 ∨
      (s.arena.free_list + 24 ≤ fc ∨
       fc + get_chunk_size s.mem fc + 8 ≤ s.arena.free_list) := by
    cases l1 with
    | nil => left; exact hc.1.symm ▸ rfl
    | cons b l1' =>
      right; right
      have hm : s.arena.free_list = b := hc.1
      rw [hm]
      exact hsep b (by simp) (fun he => hfcnm.1 (he ▸ (by simp : b ∈ b :: l1')))
  obtain ⟨hrm, hrfl, hrbase, hrbump, hrendp, hrtc, hrlk⟩ := remove_from_free_list_eval s fc
  have hm1fc : (remove_from_free_list s fc).mem fc = s.mem fc := by
    rw [hrm]
    split_ifs <;> omega
  unfold split_free_chunk
  dsimp only
  rw [if_pos (by rw [h48]; exact hcase)]
  set s1 := remove_from_free_list s fc with hs1
  have hs3 : set_next_chunk_hdr_prev
      { s1 with mem := set_hdr_keep_prev s1.mem fc need false } fc true =
      { s1 with mem := upd (set_hdr_keep_prev s1.mem fc need false) (fc + need) (set_prev_bit_val (set_hdr_keep_prev s1.mem fc need false (fc + need)) true) } := by
    unfold set_next_chunk_hdr_prev set_prev_bit_in_hdr
    dsimp only
    rw [show get_next_chunk_hdr (set_hdr_keep_prev s1.mem fc need false) fc =
        fc + need from ?hge]
    case hge =>
      unfold get_next_chunk_hdr get_chunk_size set_hdr_keep_prev
      rw [upd_same]
      have hf := (keep_prev_val_facts (s1.mem fc) need).2.2
      omega
    rw [if_pos (by rw [hrbump]; omega)]
  rw [hs3]
  dsimp only
  unfold set_hdr_keep_prev set_ftr
  have hH : (if s.arena.free_list = fc then s.mem (fc + 8) else s.arena.free_list) = 0 ∨
      ((if s.arena.free_list = fc then s.mem (fc + 8) else s.arena.free_list) + 24 ≤ fc ∨
       fc + get_chunk_size s.mem fc + 8 ≤
         (if s.arena.free_list = fc then s.mem (fc + 8) else s.arena.free_list)) := by
    by_cases hfl : s.arena.free_list = fc
    · simp only [if_pos hfl]; exact hfdsep
    · simp only [if_neg hfl]
      rcases hheadsep with h | h
      · exact absurd h hfl
      · exact h
  constructor
  · rw [(push_front_eval _ _).1]
    dsimp only
    rw [hrfl]
    rw [if_neg (by rcases hH with h | h | h <;> omega)]
    rw [if_neg (by omega), if_neg (by omega)]
    rw [upd_ne _ _ _ _ (by omega : fc ≠ fc + need + 16)]
    rw [upd_ne _ _ _ _ (by omega : fc ≠ fc + need + 8)]
    rw [upd_ne _ _ _ _ (by unfold WORD; omega :
      fc ≠ fc + need + (get_chunk_size s.mem fc - need) - WORD)]
    rw [upd_ne _ _ _ _ (by omega : fc ≠ fc + need)]
    rw [upd_ne _ _ _ _ (by omega : fc ≠ fc + need)]
    rw [upd_same]
    rw [hm1fc]
  · rw [(push_front_eval _ _).1]
    dsimp only
    rw [hrfl]
    rw [if_neg (by rcases hH with h | h | h <;> omega)]
    rw [if_neg (by omega), if_neg (by omega)]
    rw [upd_ne _ _ _ _ (by omega : fc + need ≠ fc + need + 16)]
    rw [upd_ne _ _ _ _ (by omega : fc + need ≠ fc + need + 8)]
    rw [upd_ne _ _ _ _ (by unfold WORD; omega :
      fc + need ≠ fc + need + (get_chunk_size s.mem fc - need) - WORD)]
    rw [upd_same]
    rw [show (upd (upd s1.mem fc (set_hdr_keep_prev_val (s1.mem fc) need false)) (fc + need)
        (set_prev_bit_val
          (upd s1.mem fc (set_hdr_keep_prev_val (s1.mem fc) need false) (fc + need)) true))
        (fc + need) =
      set_prev_bit_val
        (upd s1.mem fc (set_hdr_keep_prev_val (s1.mem fc) need false) (fc + need)) true
      from upd_same _ _ _]
    have hgp := get_prev_set_prev_true
      (upd s1.mem fc (set_hdr_keep_prev_val (s1.mem fc) need false) (fc + need))
    unfold set_hdr_keep_prev_val build_hdr_with_free_bit get_prev_from_hdr at hgp ⊢
    simp only [if_true]
    omega

theorem split_free_chunk_split_frame (s : S) (fc need : Nat) (l1 l2 : List Nat)
    (hc : flChain s.mem 0 s.arena.free_list (l1 ++ fc :: l2))
    (hpw : (l1 ++ fc :: l2).Pairwise NodeSep)
    (hsep : ∀ h ∈ l1 ++ fc :: l2, h ≠ fc →
      h + 24 ≤ fc ∨ fc + get_chunk_size s.mem fc + 8 ≤ h)
    (h16 : need % 16 = 0) (hneed : 32 ≤ need)
    (hcase : need + get_free_chunk_min_size ≤ get_chunk_size s.mem fc)
    (hbump : fc + get_chunk_size s.mem fc ≤ s.arena.bump)
    (x : Nat)
    (hx1 : x < fc ∨ fc + get_chunk_size s.mem fc ≤ x)
    (hx2 : ∀ h ∈ l1 ++ fc :: l2, x ≠ h + 8 ∧ x ≠ h + 16) :
    (split_free_chunk s fc need).2.mem x = s.mem x := by
  have hcsz16 : get_chunk_size s.mem fc % 16 = 0 := by
    unfold get_chunk_size get_size_from_hdr; omega
  have h48 : get_free_chunk_min_size = 48 := rfl
  rw [h48] at hcase
  have hfdid : s.mem (fc + 8) = l2.headD 0 :=
    flChain_fc_fd s.mem fc l2 l1 0 s.arena.free_list hc
  have hbkid : s.mem (fc + 16) = l1.getLastD 0 :=
    flChain_fc_bk s.mem fc l2 l1 0 s.arena.free_list hc
  have hfcnm := fc_not_mem_rest hpw
  obtain ⟨hrm, hrfl, hrbase, hrbump, hrendp, hrtc, hrlk⟩ := remove_from_free_list_eval s fc
  have hnH : ¬ ((if s.arena.free_list = fc then s.mem (fc + 8) else s.arena.free_list) ≠ 0 ∧
      x = (if s.arena.free_list = fc then s.mem (fc + 8) else s.arena.free_list) + 16) := by
    by_cases hfl : s.arena.free_list = fc
    · simp only [if_pos hfl]
      rw [hfdid]
      cases l2 with
      | nil => simp
      | cons h2 t2 =>
        rintro ⟨-, hxe⟩
        refine (hx2 h2 (List.mem_append_right _ (by simp))).2 ?_
        simpa using hxe
    · simp only [if_neg hfl]
      rintro ⟨hne0, hxe⟩
      cases l1 with
      | nil => exact hfl hc.1
      | cons b t =>
        have hm : s.arena.free_list = b := hc.1
        refine (hx2 b (List.mem_append_left _ (by simp))).2 ?_
        rw [← hm]
        exact hxe
  have hnfd : ¬ (s.mem (fc + 8) ≠ 0 ∧ x = s.mem (fc + 8) + 16) := by
    rw [hfdid]
    cases l2 with
    | nil => simp
    | cons h2 t2 =>
      rintro ⟨-, hxe⟩
      refine (hx2 h2 (List.mem_append_right _ (by simp))).2 ?_
      simpa using hxe
  have hnbk : ¬ (s.mem (fc + 16) ≠ 0 ∧ x = s.mem (fc + 16) + 8) := by
    rw [hbkid]
    cases l1 with
    | nil => simp
    | cons b t =>
      rintro ⟨-, hxe⟩
      have hm : (b :: t).getLastD 0 ∈ b :: t := by
        rw [List.getLastD_cons]
        exact List.getLastD_mem_cons t b
      exact (hx2 _ (List.mem_append_left _ hm)).1 hxe
  unfold split_free_chunk
  dsimp only
  rw [if_pos (by rw [h48]; exact hcase)]
  set s1 := remove_from_free_list s fc with hs1
  have hs3 : set_next_chunk_hdr_prev
      { s1 with mem := set_hdr_keep_prev s1.mem fc need false } fc true =
      { s1 with mem := upd (set_hdr_keep_prev s1.mem fc need false) (fc + need) (set_prev_bit_val (set_hdr_keep_prev s1.mem fc need false (fc + need)) true) } := by
    unfold set_next_chunk_hdr_prev set_prev_bit_in_hdr
    dsimp only
    rw [show get_next_chunk_hdr (set_hdr_keep_prev s1.mem fc need false) fc =
        fc + need from ?hge]
    case hge =>
      unfold get_next_chunk_hdr get_chunk_size set_hdr_keep_prev
      rw [upd_same]
      have hf := (keep_prev_val_facts (s1.mem fc) need).2.2
      omega
    rw [if_pos (by rw [hrbump]; omega)]
  rw [hs3]
  dsimp only
  unfold set_hdr_keep_prev set_ftr
  rw [(push_front_eval _ _).1]
  dsimp only
  rw [hrfl]
  rw [if_neg hnH]
  rw [if_neg (by omega), if_neg (by omega)]
  rw [upd_ne _ _ _ _ (by omega : x ≠ fc + need + 16)]
  rw [upd_ne _ _ _ _ (by omega : x ≠ fc + need + 8)]
  rw [upd_ne _ _ _ _ (by unfold WORD; omega :
    x ≠ fc + need + (get_chunk_size s.mem fc - need) - WORD)]
  rw [upd_ne _ _ _ _ (by omega : x ≠ fc + need)]
  rw [upd_ne _ _ _ _ (by omega : x ≠ fc + need)]
  rw [upd_ne _ _ _ _ (by omega : x ≠ fc)]
  rw [hrm]
  rw [if_neg (by omega : ¬ x = fc + 16), if_neg (by omega : ¬ x = fc + 8)]
  rw [if_neg hnfd, if_neg hnbk]

end SplitFrames

section WholeFrames

open MyAlloc

theorem split_free_chunk_whole_raw (s : S) (fc need : Nat) (l1 l2 : List Nat)
    (hc : flChain s.mem 0 s.arena.free_list (l1 ++ fc :: l2))
    (hpw : (l1 ++ fc :: l2).Pairwise NodeSep)
    (hsep : ∀ h ∈ l1 ++ fc :: l2, h ≠ fc →
      h + 24 ≤ fc ∨ fc + get_chunk_size s.mem fc + 8 ≤ h)
    (hcszge : 32 ≤ get_chunk_size s.mem fc)
    (hcase : get_chunk_size s.mem fc < need + get_free_chunk_min_size) :
    (split_free_chunk s fc need).2.mem fc =
      set_hdr_keep_prev_val (s.mem fc) (get_chunk_size s.mem fc) false ∧
    (fc + get_chunk_size s.mem fc < s.arena.bump →
      (split_free_chunk s fc need).2.mem (fc + get_chunk_size s.mem fc) =
        set_prev_bit_val (s.mem (fc + get_chunk_size s.mem fc)) true) ∧
    (¬ fc + get_chunk_size s.mem fc < s.arena.bump →
      (split_free_chunk s fc need).2.mem (fc + get_chunk_size s.mem fc) =
        s.mem (fc + get_chunk_size s.mem fc)) := by
  have hfdid : s.mem (fc + 8) = l2.headD 0 :=
    flChain_fc_fd s.mem fc l2 l1 0 s.arena.free_list hc
  have hbkid : s.mem (fc + 16) = l1.getLastD 0 :=
    flChain_fc_bk s.mem fc l2 l1 0 s.arena.free_list hc
  have hfcnm := fc_not_mem_rest hpw
  have hfdsep : s.mem (fc + 8) = 0 ∨
      (s.mem (fc + 8) + 24 ≤ fc ∨ fc + get_chunk_size s.mem fc + 8 ≤ s.mem (fc + 8)) := by
    cases l2 with
    | nil => left; rw [hfdid]; rfl
    | cons h2 t2 =>
      right
      have hm : s.mem (fc + 8) = h2 := by rw [hfdid]; rfl
      rw [hm]
      exact hsep h2 (by simp) (fun he => hfcnm.2 (he ▸ (by simp : h2 ∈ h2 :: t2)))
  have hbksep : s.mem (fc + 16) = 0 ∨
      (s.mem (fc + 16) + 24 ≤ fc ∨ fc + get_chunk_size s.mem fc + 8 ≤ s.mem (fc + 16)) := by
    cases l1 with
    | nil => left; rw [hbkid]; rfl
    | cons b l1' =>
      right
      have hm : s.mem (fc + 16) ∈ b :: l1' := by
        rw [hbkid, List.getLastD_cons]
        exact List.getLastD_mem_cons l1' b
      refine hsep (s.mem (fc + 16)) (List.mem_append_left _ hm) ?_
      intro he
      exact hfcnm.1 (he ▸ hm)
  obtain ⟨hrm, hrfl, hrbase, hrbump, hrendp, hrtc, hrlk⟩ := remove_from_free_list_eval s fc
  have hm1fc : (remove_from_free_list s fc).mem fc = s.mem fc := by
    rw [hrm]
    split_ifs <;> omega
  have hm1nxt : (remove_from_free_list s fc).mem (fc + get_chunk_size s.mem fc) =
      s.mem (fc + get_chunk_size s.mem fc) := by
    rw [hrm]
    split_ifs <;> omega
  unfold split_free_chunk
  dsimp only
  rw [if_neg (by omega)]
  set s1 := remove_from_free_list s fc with hs1
  unfold set_hdr_keep_prev
  have hnxt : get_next_chunk_hdr (upd s1.mem fc
      (set_hdr_keep_prev_val (s1.mem fc) (get_chunk_size s.mem fc) false)) fc =
      fc + get_chunk_size s.mem fc := by
    unfold get_next_chunk_hdr get_chunk_size
    rw [upd_same, hm1fc]
    unfold get_size_from_hdr
    unfold set_hdr_keep_prev_val build_hdr_with_free_bit get_prev_from_hdr
    simp only [Bool.false_eq_true, if_false]
    omega
  unfold set_next_chunk_hdr_prev set_prev_bit_in_hdr
  dsimp only
  rw [hnxt]
  split
  · refine ⟨?_, ?_, ?_⟩
    · dsimp only
      rw [upd_ne _ _ _ _ (by omega : fc ≠ fc + get_chunk_size s.mem fc)]
      rw [upd_same, hm1fc]
    · intro hlt
      dsimp only
      rw [upd_same]
      rw [upd_ne _ _ _ _ (by omega :
        fc + get_chunk_size s.mem fc ≠ fc), hm1nxt]
    · intro hlt
      exact absurd (by rw [hrbump] at *; assumption) hlt
  · refine ⟨?_, ?_, ?_⟩
    · dsimp only
      rw [upd_same, hm1fc]
    · intro hlt
      exact absurd (by rw [← hrbump] at hlt; exact hlt) (by assumption)
    · intro hlt
      dsimp only
      rw [upd_ne _ _ _ _ (by omega :
        fc + get_chunk_size s.mem fc ≠ fc), hm1nxt]

theorem split_free_chunk_whole_frame (s : S) (fc need : Nat) (l1 l2 : List Nat)
    (hc : flChain s.mem 0 s.arena.free_list (l1 ++ fc :: l2))
    (hpw : (l1 ++ fc :: l2).Pairwise NodeSep)
    (hsep : ∀ h ∈ l1 ++ fc :: l2, h ≠ fc →
      h + 24 ≤ fc ∨ fc + get_chunk_size s.mem fc + 8 ≤ h)
    (hcszge : 32 ≤ get_chunk_size s.mem fc)
    (hcase : get_chunk_size s.mem fc < need + get_free_chunk_min_size)
    (x : Nat)
    (hx1 : x < fc ∨ fc + get_chunk_size s.mem fc ≤ x)
    (hx1b : x ≠ fc + get_chunk_size s.mem fc)
    (hx2 : ∀ h ∈ l1 ++ fc :: l2, x ≠ h + 8 ∧ x ≠ h + 16) :
    (split_free_chunk s fc need).2.mem x = s.mem x := by
  have hfdid : s.mem (fc + 8) = l2.headD 0 :=
    flChain_fc_fd s.mem fc l2 l1 0 s.arena.free_list hc
  have hbkid : s.mem (fc + 16) = l1.getLastD 0 :=
    flChain_fc_bk s.mem fc l2 l1 0 s.arena.free_list hc
  obtain ⟨hrm, hrfl, hrbase, hrbump, hrendp, hrtc, hrlk⟩ := remove_from_free_list_eval s fc
  have hnfd : ¬ (s.mem (fc + 8) ≠ 0 ∧ x = s.mem (fc + 8) + 16) := by
    rw [hfdid]
    cases l2 with
    | nil => simp
    | cons h2 t2 =>
      rintro ⟨-, hxe⟩
      refine (hx2 h2 (List.mem_append_right _ (by simp))).2 ?_
      simpa using hxe
  have hnbk : ¬ (s.mem (fc + 16) ≠ 0 ∧ x = s.mem (fc + 16) + 8) := by
    rw [hbkid]
    cases l1 with
    | nil => simp
    | cons b t =>
      rintro ⟨-, hxe⟩
      have hm : (b :: t).getLastD 0 ∈ b :: t := by
        rw [List.getLastD_cons]
        exact List.getLastD_mem_cons t b
      exact (hx2 _ (List.mem_append_left _ hm)).1 hxe
  have hfcnm := fc_not_mem_rest hpw
  have hfdsep : s.mem (fc + 8) = 0 ∨
      (s.mem (fc + 8) + 24 ≤ fc ∨ fc + get_chunk_size s.mem fc + 8 ≤ s.mem (fc + 8)) := by
    cases l2 with
    | nil => left; rw [hfdid]; rfl
    | cons h2 t2 =>
      right
      have hm : s.mem (fc + 8) = h2 := by rw [hfdid]; rfl
      rw [hm]
      exact hsep h2 (by simp) (fun he => hfcnm.2 (he ▸ (by simp : h2 ∈ h2 :: t2)))
  have hbksep : s.mem (fc + 16) = 0 ∨
      (s.mem (fc + 16) + 24 ≤ fc ∨ fc + get_chunk_size s.mem fc + 8 ≤ s.mem (fc + 16)) := by
    cases l1 with
    | nil => left; rw [hbkid]; rfl
    | cons b l1' =>
      right
      have hm : s.mem (fc + 16) ∈ b :: l1' := by
        rw [hbkid, List.getLastD_cons]
        exact List.getLastD_mem_cons l1' b
      refine hsep (s.mem (fc + 16)) (List.mem_append_left _ hm) ?_
      intro he
      exact hfcnm.1 (he ▸ hm)
  have hm1fc : (remove_from_free_list s fc).mem x = s.mem x := by
    rw [hrm]
    rw [if_neg (by omega : ¬ x = fc + 16), if_neg (by omega : ¬ x = fc + 8)]
    rw [if_neg hnfd, if_neg hnbk]
  unfold split_free_chunk
  dsimp only
  rw [if_neg (by omega)]
  set s1 := remove_from_free_list s fc with hs1
  unfold set_hdr_keep_prev
  have hnxt : get_next_chunk_hdr (upd s1.mem fc
      (set_hdr_keep_prev_val (s1.mem fc) (get_chunk_size s.mem fc) false)) fc =
      fc + get_chunk_size s.mem fc := by
    unfold get_next_chunk_hdr get_chunk_size
    rw [upd_same]
    rw [show s1.mem fc = s.mem fc from by rw [hrm]; split_ifs <;> omega]
    unfold get_size_from_hdr
    unfold set_hdr_keep_prev_val build_hdr_with_free_bit get_prev_from_hdr
    simp only [Bool.false_eq_true, if_false]
    omega
  unfold set_next_chunk_hdr_prev set_prev_bit_in_hdr
  dsimp only
  rw [hnxt]
  split
  · dsimp only
    rw [upd_ne _ _ _ _ hx1b]
    rw [upd_ne _ _ _ _ (by omega : x ≠ fc)]
    exact hm1fc
  · dsimp only
    rw [upd_ne _ _ _ _ (by omega : x ≠ fc)]
    exact hm1fc

end WholeFrames

section SurgeryHelpers

open MyAlloc

theorem hfAddrs_ge :
    ∀ (l : List Chunk) (pos : Nat), (∀ c ∈ l, 8 ≤ c.size) →
      ∀ a ∈ hfAddrs pos l, pos ≤ a := by
  intro l pos hsz a ha
  obtain ⟨lA, c, lB, he, hor⟩ := hfAddrs_mem l pos a ha
  have hc8 : 8 ≤ c.size := hsz c (by rw [he]; simp)
  rcases hor with h | h <;> omega

theorem IsChunkAt_append3 (base : Nat) (lA mid lB : List Chunk) (h : Nat)
    (P : Chunk → Prop) :
    IsChunkAt base (lA ++ (mid ++ lB)) h P ↔
      (IsChunkAt base lA h P ∨ IsChunkAt (base + sumSizes lA) mid h P ∨
       IsChunkAt (base + sumSizes lA + sumSizes mid) lB h P) := by
  rw [IsChunkAt_append, IsChunkAt_append]

theorem IsChunkAt_one (base : Nat) (c : Chunk) (h : Nat) (P : Chunk → Prop) :
    IsChunkAt base [c] h P ↔ (h = base + 8 ∧ P c) := by
  rw [IsChunkAt_cons]
  constructor
  · rintro (hx | hx)
    · exact hx
    · exact absurd hx (IsChunkAt_nil _ _ _)
  · exact Or.inl

theorem IsChunkAt_pair (base : Nat) (c1 c2 : Chunk) (h : Nat) (P : Chunk → Prop) :
    IsChunkAt base [c1, c2] h P ↔
      ((h = base + 8 ∧ P c1) ∨ (h = base + c1.size + 8 ∧ P c2)) := by
  rw [IsChunkAt_cons, IsChunkAt_one]

theorem split_free_chunk_fields (s : S) (fc n : Nat) :
    (split_free_chunk s fc n).2.arena.base = s.arena.base ∧
    (split_free_chunk s fc n).2.arena.endp = s.arena.endp ∧
    (split_free_chunk s fc n).2.tcache = s.tcache := by
  obtain ⟨-, -, hrbase, -, hrendp, hrtc, -⟩ := remove_from_free_list_eval s fc
  unfold split_free_chunk
  dsimp only
  split
  · refine ⟨?_, ?_, ?_⟩
    · rw [(push_front_eval _ _).2.2.1]
      unfold set_next_chunk_hdr_prev
      dsimp only
      split <;> dsimp only <;> exact hrbase
    · rw [(push_front_eval _ _).2.2.2.2.1]
      unfold set_next_chunk_hdr_prev
      dsimp only
      split <;> dsimp only <;> exact hrendp
    · rw [(push_front_eval _ _).2.2.2.2.2.1]
      unfold set_next_chunk_hdr_prev
      dsimp only
      split <;> dsimp only <;> exact hrtc
  · refine ⟨?_, ?_, ?_⟩ <;>
      (unfold set_next_chunk_hdr_prev; dsimp only; split <;> dsimp only)
    · exact hrbase
    · exact hrbase
    · exact hrendp
    · exact hrendp
    · exact hrtc
    · exact hrtc

end SurgeryHelpers
